import Mathlib

set_option maxHeartbeats 1000000

/-!
Verification development for the streaming JSON-superset parser in
`ext/oj/parsex.c` (functions `skip_comment`, `add_value`, `add_num_value`,
`read_true`, `read_false`, `read_hex`, `unicode_to_chars`, `read_escaped_str`,
`read_str`, `read_num`, `array_start`/`array_end`, `hash_start`/`hash_end`,
`comma`, `colon`, `oj_parse2x`, `oj_num_as_valuex`, `oj_set_error_atx`,
`oj_pi_parsex`).

The input is modelled as a `List Nat` of byte values.  The reader
(`read.h`, not part of the sources) is modelled from the specification:
`get()` returns the next character and advances, or the sentinel `0` at
end-of-input; `next_non_white()` skips ASCII whitespace; `expect(lit)`
consumes exactly the literal or fails; `protect()` marks the start of the
token being lexed as a zero-copy span (the NumberInfo invariant requires the
span to cover the raw literal text, so for `read_num` the mark is the first
character of the numeric token).

Machine integers are modelled as `Nat`/`Int`; `uint32_t` subtraction wraps
explicitly modulo `2 ^ 32` (`sub32`).  The C `long` accumulator checks use
`LONG_MAX = 2 ^ 63 - 1` as in the source.
-/

/-- Reader get: next character and the rest, sentinel 0 at end-of-input. -/
def rget : List Nat → Nat × List Nat
  | [] => (0, [])
  | c :: r => (c, r)

/-- ASCII decimal digit test, as the C comparisons `'0' <= c && c <= '9'`. -/
def isDigit (c : Nat) : Bool := 48 ≤ c && c ≤ 57

/-- Reader next_non_white: skip space, tab, newline, carriage return and
form feed, then return the first significant character (sentinel 0 at
end-of-input).  Modelled from the spec: the reader is not under `src/`. -/
def next_non_white : List Nat → Nat × List Nat
  | [] => (0, [])
  | c :: r =>
    if c = 32 ∨ c = 9 ∨ c = 10 ∨ c = 13 ∨ c = 12 then next_non_white r
    else (c, r)

/-- Reader expect: consume exactly the given literal; `true` on success.
Modelled from the spec (§4.1); on failure the consumed amount is
unobservable because every caller records an error and the parse aborts. -/
def reader_expect : List Nat → List Nat → Bool × List Nat
  | [], r => (true, r)
  | _ :: _, [] => (false, [])
  | l :: ls, c :: r => if c = l then reader_expect ls r else (false, c :: r)

/-- `LONG_MAX` on an LP64 build, used by the `read_num` overflow checks. -/
def LONG_MAX : Nat := 9223372036854775807

/-- `EXP_MAX` from parsex.c line 50. -/
def EXP_MAX : Nat := 1023

/-- `DEC_MAX` from parsex.c line 51. -/
def DEC_MAX : Nat := 14

/-- Wrapping `uint32_t` subtraction `a - b` for `b < 2 ^ 32`. -/
def sub32 (a b : Nat) : Nat := (a + 4294967296 - b) % 4294967296

/-- Two's-complement wrap to a signed 64-bit value, the behavior of the
`int64_t` accumulator fields of `_NumInfo` on overflow (`ni.i = ni.i * 10 +
d` at parsex.c line 437 is ordinary C integer arithmetic, so `10^19` wraps
to a negative value and the `LONG_MAX` comparison that follows sees the
wrapped value). -/
def s64 (x : Int) : Int :=
  (x + 9223372036854775808) % 18446744073709551616 - 9223372036854775808

/-- The `bigdec_load` option (declared in oj.h, outside `src/`).  Modelled
from the spec's number-mode policy (§6): `BigDec` forces every number large
(always_decimal), `FloatDec` degrades large numbers to float
(float_on_overflow). -/
inductive BigdecLoad
  | AutoDec
  | BigDec
  | FloatDec
deriving DecidableEq, Repr

/-- `struct _NumInfo` (declared in parsex.h, outside `src/`); fields and
their use are taken from parsex.c and §3 of the spec.  `str` is the raw
input suffix at the start of the numeric token and `len` the number of bytes
of the recorded span; `i`, `num` and `div` are the `int64_t` accumulators
(compared against `LONG_MAX` and handed to `LONG2NUM`/`(double)` casts in
parsex.c), kept wrapped to the signed 64-bit range by `s64`; `big` is the C
`int` truthiness flag (`ni.big++` in the source increments it).
spec-modelled: the `exp` field's width is not visible in `src/`, so it is
modelled unbounded — the `EXP_MAX` = 1023 range check fires far below any
machine width, and no property here depends on exponents beyond it. -/
structure NumInfo where
  str : List Nat
  i : Int
  num : Int
  div : Int
  len : Nat
  exp : Int
  dec_cnt : Nat
  big : Nat
  infinity : Bool
  nan : Bool
  neg : Bool
  no_big : Bool
deriving DecidableEq, Repr

/-- One digit step of the integer loop of `read_num` (parsex.c lines
426-441): the significant-digit count always advances; once `big` is set it
is merely incremented, otherwise the trailing-zero run is tracked, `i`
accumulates the digit in wrapping 64-bit arithmetic, and `big` is set when
the (already wrapped) accumulator compares at or above `LONG_MAX` or when
the significant-digit budget is exceeded. -/
def int_step (ni : NumInfo) (zc c : Nat) : NumInfo × Nat :=
  let ni1 := { ni with dec_cnt := ni.dec_cnt + 1 }
  if ni1.big ≠ 0 then ({ ni1 with big := ni1.big + 1 }, zc)
  else
    let d := c - 48
    let zc1 := if d = 0 then zc + 1 else 0
    let i1 := s64 (ni1.i * 10 + (d : Int))
    if (LONG_MAX : Int) ≤ i1 ∨ DEC_MAX < ni1.dec_cnt - zc1 then
      ({ ni1 with i := i1, big := 1 }, zc1)
    else
      ({ ni1 with i := i1 }, zc1)

/-- Integer-part digit loop of `read_num` (parsex.c lines 425-442): entered
with the current character `c` already read; consumes digits and returns the
updated info, zero run, terminating character and rest.  At end-of-input the
loop stops with the sentinel 0 as terminating character. -/
def int_loop : NumInfo → Nat → Nat → List Nat → NumInfo × Nat × Nat × List Nat
  | ni, zc, c, [] =>
    if isDigit c then ((int_step ni zc c).1, (int_step ni zc c).2, 0, [])
    else (ni, zc, c, [])
  | ni, zc, c, c2 :: tl =>
    if isDigit c then int_loop (int_step ni zc c).1 (int_step ni zc c).2 c2 tl
    else (ni, zc, c, c2 :: tl)

/-- One digit step of the fractional loop of `read_num` (parsex.c lines
446-458): numerator `num` and power-of-ten denominator `div` accumulate
unconditionally in wrapping 64-bit arithmetic; `big` is set when the
(already wrapped) denominator compares at or above `LONG_MAX` or the
significant-digit budget is exceeded. -/
def frac_step (ni : NumInfo) (zc c : Nat) : NumInfo × Nat :=
  let d := c - 48
  let zc1 := if d = 0 then zc + 1 else 0
  let ni1 := { ni with dec_cnt := ni.dec_cnt + 1, num := s64 (ni.num * 10 + (d : Int)),
                       div := s64 (ni.div * 10) }
  if (LONG_MAX : Int) ≤ ni1.div ∨ DEC_MAX < ni1.dec_cnt - zc1 then ({ ni1 with big := 1 }, zc1)
  else (ni1, zc1)

/-- Fractional-part digit loop of `read_num` (parsex.c lines 445-459). -/
def frac_loop : NumInfo → Nat → Nat → List Nat → NumInfo × Nat × Nat × List Nat
  | ni, zc, c, [] =>
    if isDigit c then ((frac_step ni zc c).1, (frac_step ni zc c).2, 0, [])
    else (ni, zc, c, [])
  | ni, zc, c, c2 :: tl =>
    if isDigit c then frac_loop (frac_step ni zc c).1 (frac_step ni zc c).2 c2 tl
    else (ni, zc, c, c2 :: tl)

/-- One digit step of the exponent loop of `read_num` (parsex.c lines
472-475): the (unsigned) exponent accumulates and `big` is set once it
reaches `EXP_MAX`. -/
def exp_step (ni : NumInfo) (e c : Nat) : NumInfo × Nat :=
  let e1 := e * 10 + (c - 48)
  if EXP_MAX ≤ e1 then ({ ni with big := 1 }, e1) else (ni, e1)

/-- Exponent digit loop of `read_num` (parsex.c lines 471-476). -/
def exp_loop : NumInfo → Nat → Nat → List Nat → NumInfo × Nat × Nat × List Nat
  | ni, e, c, [] =>
    if isDigit c then ((exp_step ni e c).1, (exp_step ni e c).2, 0, [])
    else (ni, e, c, [])
  | ni, e, c, c2 :: tl =>
    if isDigit c then exp_loop (exp_step ni e c).1 (exp_step ni e c).2 c2 tl
    else (ni, e, c, c2 :: tl)

/-- The `'.'` stage of `read_num` (parsex.c lines 443-460). -/
def num_frac_part (ni : NumInfo) (zc : Nat) (c : Nat) (rest : List Nat) :
    NumInfo × Nat × Nat × List Nat :=
  if c = 46 then
    let p := rget rest
    frac_loop ni zc p.1 p.2
  else (ni, zc, c, rest)

/-- The `e`/`E` stage of `read_num` (parsex.c lines 461-480): optional
exponent sign, digit loop, then sign application.  The character stopping
the stage was consumed by `reader_get` and is dropped. -/
def num_exp_part (ni : NumInfo) (c : Nat) (rest : List Nat) : NumInfo × List Nat :=
  if c = 101 ∨ c = 69 then
    let p := rget rest
    let q :=
      if p.1 = 45 then let p2 := rget p.2; (p2.1, p2.2, true)
      else if p.1 = 43 then let p2 := rget p.2; (p2.1, p2.2, false)
      else (p.1, p.2, false)
    match q with
    | (cy, ry, eneg) =>
      match exp_loop ni 0 cy ry with
      | (ni2, e, _, rz) =>
        ({ ni2 with exp := if eneg then -(e : Int) else (e : Int) }, rz)
  else (ni, rest)

/-- Decimal path of `read_num` (parsex.c lines 424-483): integer digits,
optional fraction, optional exponent; then the trailing-zero run is removed
from the significant-digit count and the raw span length is recorded
(`tail - str`; the character terminating the literal has been consumed, so
it is included unless the literal ended at end-of-input). -/
def num_decimal (ni : NumInfo) (c : Nat) (rest : List Nat) : NumInfo × List Nat :=
  let t1 := int_loop ni 0 c rest
  let t2 := num_frac_part t1.1 t1.2.1 t1.2.2.1 t1.2.2.2
  let t3 := num_exp_part t2.1 t2.2.2.1 t2.2.2.2
  ({ t3.1 with dec_cnt := t3.1.dec_cnt - t2.2.1, len := t3.1.str.length - t3.2.length },
   t3.2)

/-- The `BigDec` policy application at parsex.c lines 484-486. -/
def num_finish (ni : NumInfo) (opts : BigdecLoad) : NumInfo :=
  if opts = BigdecLoad.BigDec then { ni with big := 1 } else ni

/-- `read_num` (parsex.c lines 383-488), entered with the first character
`c0` of the numeric token already read.  Returns the lexed `NumInfo` and the
remaining input, or the recorded error message.  Note that the character
that terminates a decimal literal is consumed by the digit loops and never
pushed back. -/
def read_num (c0 : Nat) (input : List Nat) (opts : BigdecLoad) :
    Except String (NumInfo × List Nat) :=
  let ni0 : NumInfo :=
    { str := c0 :: input, i := 0, num := 0, div := 1, len := 0, exp := 0,
      dec_cnt := 0, big := 0, infinity := false, nan := false, neg := false,
      no_big := opts = BigdecLoad.FloatDec }
  let s : Nat × List Nat × NumInfo :=
    if c0 = 45 then ((rget input).1, (rget input).2, { ni0 with neg := true })
    else if c0 = 43 then ((rget input).1, (rget input).2, ni0)
    else (c0, input, ni0)
  if s.1 = 73 then
    let x := reader_expect [110, 102, 105, 110, 105, 116, 121] s.2.1
    if x.1 then .ok (num_finish { s.2.2 with infinity := true } opts, x.2)
    else .error "not a number or other value"
  else if s.1 = 78 ∨ s.1 = 110 then
    let p := rget s.2.1
    let p2 := rget p.2
    if p.1 = 97 ∧ (p2.1 = 78 ∨ p2.1 = 110) then
      .ok (num_finish { s.2.2 with nan := true } opts, p2.2)
    else .error "not a number or other value"
  else
    let t := num_decimal s.2.2 s.1 s.2.1
    .ok (num_finish t.1 opts, t.2)

/-- Ruby value produced by `oj_num_as_valuex`.  `flt` is the double path,
recorded as the integer/numerator/denominator/exponent operands plus the
sign flag the C feeds into its floating-point computation; `nanF` and
`infF` are the not-a-number and signed-infinity doubles; `fix` is the
`LONG2NUM` path; `bigInt`/`bigDec` carry the raw span bytes handed to
`rb_cstr_to_inum` / `BigDecimal.new` (with the degrade-to-float flag). -/
inductive RNum
  | flt (i num div exp : Int) (neg : Bool)
  | nanF
  | infF (neg : Bool)
  | fix (n : ℤ)
  | bigInt (raw : List Nat)
  | bigDec (raw : List Nat) (degrade : Bool)
deriving DecidableEq, Repr

/-- `oj_num_as_valuex` (parsex.c lines 676-730).  The float branch computes
a C `double` as `(double)ni->i + (double)ni->num / (double)ni->div`,
negated when `ni->neg` and scaled by `pow(10.0, ni->exp)` when the exponent
is nonzero (lines 718-724); binary64 rounding and the libm `pow` are
outside this source file, so `.flt` records the exact operands of that
computation rather than an idealized real value. -/
def oj_num_as_valuex (ni : NumInfo) : RNum :=
  if ni.infinity then .infF ni.neg
  else if ni.nan then .nanF
  else if ni.div = 1 ∧ ni.exp = 0 then
    if ni.big ≠ 0 then .bigInt (ni.str.take ni.len)
    else .fix (if ni.neg then -ni.i else ni.i)
  else
    if ni.big ≠ 0 then .bigDec (ni.str.take ni.len) ni.no_big
    else .flt ni.i ni.num ni.div ni.exp ni.neg

/-- Numeric content of an `RNum` when it is an exact fixnum (the `LONG2NUM`
path, which involves no floating point); the `.flt` double computation is
kept symbolic, so it has no exact rational content here. -/
def RNum.toQ : RNum → Option ℚ
  | .fix n => some (n : ℚ)
  | _ => none

/-- A single hexadecimal digit as in `read_hex` (parsex.c lines 178-187). -/
def hexDigit (c : Nat) : Except String Nat :=
  if 48 ≤ c ∧ c ≤ 57 then .ok (c - 48)
  else if 65 ≤ c ∧ c ≤ 70 then .ok (c - 65 + 10)
  else if 97 ≤ c ∧ c ≤ 102 then .ok (c - 97 + 10)
  else .error "invalid hex character"

/-- `read_hex` (parsex.c lines 169-190): four hex digits accumulated into a
code unit (`b = b << 4; b += digit`). -/
def read_hex (input : List Nat) : Except String (Nat × List Nat) :=
  let p1 := rget input
  match hexDigit p1.1 with
  | .error e => .error e
  | .ok d1 =>
    let p2 := rget p1.2
    match hexDigit p2.1 with
    | .error e => .error e
    | .ok d2 =>
      let p3 := rget p2.2
      match hexDigit p3.1 with
      | .error e => .error e
      | .ok d3 =>
        let p4 := rget p3.2
        match hexDigit p4.1 with
        | .error e => .error e
        | .ok d4 => .ok (((d1 <<< 4 ||| d2) <<< 4 ||| d3) <<< 4 ||| d4, p4.2)

/-- `unicode_to_chars` (parsex.c lines 192-224): UTF-8 encoding of a code
point with the legacy 5- and 6-byte forms, or the invalid-character error
above `0x7FFFFFFF`.  The byte values are the C expressions; all fit in a
byte so the `(char)` casts do not truncate. -/
def unicode_to_chars (code : Nat) : Except String (List Nat) :=
  if code ≤ 127 then .ok [code]
  else if code ≤ 2047 then .ok [192 ||| (code >>> 6), 128 ||| (63 &&& code)]
  else if code ≤ 65535 then
    .ok [224 ||| (code >>> 12), 128 ||| ((code >>> 6) &&& 63), 128 ||| (63 &&& code)]
  else if code ≤ 2097151 then
    .ok [240 ||| (code >>> 18), 128 ||| ((code >>> 12) &&& 63),
         128 ||| ((code >>> 6) &&& 63), 128 ||| (63 &&& code)]
  else if code ≤ 67108863 then
    .ok [248 ||| (code >>> 24), 128 ||| ((code >>> 18) &&& 63),
         128 ||| ((code >>> 12) &&& 63), 128 ||| ((code >>> 6) &&& 63),
         128 ||| (63 &&& code)]
  else if code ≤ 2147483647 then
    .ok [252 ||| (code >>> 30), 128 ||| ((code >>> 24) &&& 63),
         128 ||| ((code >>> 18) &&& 63), 128 ||| ((code >>> 12) &&& 63),
         128 ||| ((code >>> 6) &&& 63), 128 ||| (63 &&& code)]
  else .error "invalid Unicode character"

/-- Surrogate handling of the `u` escape (parsex.c lines 260-278): when the
first code unit lies in `0xD800..0xDFFF` the next two characters must be a
backslash and `u`; a second 4-hex code unit is then read and combined as
`((c1 << 10) | c2) + 0x10000` with `c1 = (code - 0xD800) & 0x3FF` and
`c2 = (c2v - 0xDC00) & 0x3FF` in wrapping `uint32_t` arithmetic.  The second
unit is not checked to be a low surrogate. -/
def esc_u (code : Nat) (input : List Nat) : Except String (Nat × List Nat) :=
  if 55296 ≤ code ∧ code ≤ 57343 then
    let c1 := (sub32 code 55296) &&& 1023
    let p := rget input
    let p2 := rget p.2
    if p.1 ≠ 92 ∨ p2.1 ≠ 117 then .error "invalid escaped character"
    else
      match read_hex p2.2 with
      | .error e => .error e
      | .ok (c2v, r3) =>
        let c2 := (sub32 c2v 56320) &&& 1023
        .ok (((c1 <<< 10) ||| c2) + 65536, r3)
  else .ok (code, input)

/-- The escape-decoding loop of `read_escaped_str` (parsex.c lines 238-293),
entered at a backslash as the function's header comment states, with `buf`
holding the bytes decoded so far.  Returns the decoded bytes and the input
after the closing quote, or the recorded error.  `fuel` bounds the
recursion; every iteration consumes at least one character, so
`input.length + 1` is always sufficient. -/
def esc_loop : Nat → List Nat → List Nat → Except String (List Nat × List Nat)
  | 0, _, _ => .error "out of fuel"
  | fuel + 1, buf, input =>
    let p := rget input
    if p.1 = 34 then .ok (buf, p.2)
    else if p.1 = 0 then .error "quoted string not terminated"
    else if p.1 = 92 then
      let p2 := rget p.2
      if p2.1 = 110 then esc_loop fuel (buf ++ [10]) p2.2
      else if p2.1 = 114 then esc_loop fuel (buf ++ [13]) p2.2
      else if p2.1 = 116 then esc_loop fuel (buf ++ [9]) p2.2
      else if p2.1 = 102 then esc_loop fuel (buf ++ [12]) p2.2
      else if p2.1 = 98 then esc_loop fuel (buf ++ [8]) p2.2
      else if p2.1 = 34 then esc_loop fuel (buf ++ [34]) p2.2
      else if p2.1 = 47 then esc_loop fuel (buf ++ [47]) p2.2
      else if p2.1 = 92 then esc_loop fuel (buf ++ [92]) p2.2
      else if p2.1 = 117 then
        match read_hex p2.2 with
        | .error e => .error e
        | .ok (code, r3) =>
          match esc_u code r3 with
          | .error e => .error e
          | .ok (code2, r4) =>
            match unicode_to_chars code2 with
            | .error e => .error e
            | .ok bs => esc_loop fuel (buf ++ bs) r4
      else .error "invalid escaped character"
    else esc_loop fuel (buf ++ [p.1]) p.2

/-- Frame expected-next states (val_stack.h, outside `src/`): modelled from
the spec (§4.2) and the case labels used throughout parsex.c. -/
inductive NextSt
  | NONE
  | ARRAY_NEW
  | ARRAY_ELEMENT
  | ARRAY_COMMA
  | HASH_NEW
  | HASH_KEY
  | HASH_COLON
  | HASH_VALUE
  | HASH_COMMA
deriving DecidableEq, Repr

/-- `oj_stack_next_string` (val_stack.c, outside `src/`): a human-readable
name for each expected-next state; the exact wording is modelled from the
spec's state names, all distinct. -/
def nextString : NextSt → String
  | .NONE => "nothing"
  | .ARRAY_NEW => "array element or close"
  | .ARRAY_ELEMENT => "array element"
  | .ARRAY_COMMA => "array comma or close"
  | .HASH_NEW => "hash key or close"
  | .HASH_KEY => "hash key"
  | .HASH_COLON => "hash colon"
  | .HASH_VALUE => "hash value"
  | .HASH_COMMA => "hash comma or close"

/-- A value-stack frame (`Val` in val_stack.h, outside `src/`): the
expected-next state and the pending key (§3 of the spec; the container value
handle is opaque to the parser and not needed by any claim). -/
structure Frame where
  next : NextSt
  key : Option (List Nat)
deriving DecidableEq, Repr

/-- Parse state: remaining input, the nesting stack (top at the head), the
error slot and the `bigdec_load` option.  The C error slot is a single
`struct _Err` written unconditionally by `oj_set_error_atx`; it is modelled
as the history of recorded messages with the head being the slot's current
content, so that overwriting is observable. -/
structure PState where
  input : List Nat
  stack : List Frame
  errs : List String
  opts : BigdecLoad
deriving DecidableEq, Repr

/-- `oj_set_error_atx` (parsex.c lines 732-743): formats the message and
writes the error slot unconditionally — there is no occupied-slot check.
The C function stores the error class (always `oj_parse_error_class` in this
file) and leaves the message/location store as a TBD; the formatted message
is recorded here to distinguish the call sites. -/
def oj_set_error_atx (msg : String) (s : PState) : PState :=
  { s with errs := msg :: s.errs }

/-- `err_has` (err.h, outside `src/`): whether the error slot is set. -/
def err_has (s : PState) : Bool := s.errs ≠ []

/-- `add_value` (parsex.c lines 87-121): route a completed value through the
top frame; the value handle itself is opaque and not tracked. -/
def add_value (s : PState) : PState :=
  match s.stack with
  | [] => s
  | p :: r =>
    match p.next with
    | .ARRAY_NEW | .ARRAY_ELEMENT =>
      { s with stack := { p with next := .ARRAY_COMMA } :: r }
    | .HASH_VALUE =>
      { s with stack := { p with next := .HASH_COMMA, key := none } :: r }
    | st => oj_set_error_atx ("expected " ++ nextString st) s

/-- `add_num_value` (parsex.c lines 123-149): same transitions as
`add_value` for a numeric value. -/
def add_num_value (s : PState) : PState :=
  match s.stack with
  | [] => s
  | p :: r =>
    match p.next with
    | .ARRAY_NEW | .ARRAY_ELEMENT =>
      { s with stack := { p with next := .ARRAY_COMMA } :: r }
    | .HASH_VALUE =>
      { s with stack := { p with next := .HASH_COMMA, key := none } :: r }
    | st => oj_set_error_atx ("expected " ++ nextString st) s

/-- The parent-frame switch shared by `read_str` (parsex.c lines 347-379)
and `read_escaped_str` (parsex.c lines 294-327) once a string has been
decoded: array element, pending hash key, hash value, or a structural
error. -/
def str_value_transition (content : List Nat) (s : PState) : PState :=
  match s.stack with
  | [] => s
  | p :: r =>
    match p.next with
    | .ARRAY_NEW | .ARRAY_ELEMENT =>
      { s with stack := { p with next := .ARRAY_COMMA } :: r }
    | .HASH_NEW | .HASH_KEY =>
      { s with stack := { p with next := .HASH_COLON, key := some content } :: r }
    | .HASH_VALUE =>
      { s with stack := { p with next := .HASH_COMMA, key := none } :: r }
    | st => oj_set_error_atx ("expected " ++ nextString st ++ ", not a string") s

/-- The quote-or-backslash scan of `read_str` (parsex.c lines 337-346):
returns the bytes scanned, the stopping character (`"` or `\` or the
sentinel 0) and the rest. -/
def scan_plain : List Nat → List Nat × Nat × List Nat
  | [] => ([], 0, [])
  | c :: r =>
    if c = 34 ∨ c = 92 then ([], c, r)
    else
      match scan_plain r with
      | (cs, t, rest) => (c :: cs, t, rest)

/-- `read_str` (parsex.c lines 331-381), entered after the opening quote:
fast scan for the closing quote, switching to the escape decoder at a
backslash, and the parent transition on completion. -/
def read_str (s : PState) : PState :=
  match scan_plain s.input with
  | (content, t, rest) =>
    if t = 34 then str_value_transition content { s with input := rest }
    else if t = 92 then
      match esc_loop (rest.length + 2) content (92 :: rest) with
      | .error e => oj_set_error_atx e { s with input := [] }
      | .ok (buf, rest2) => str_value_transition buf { s with input := rest2 }
    else oj_set_error_atx "quoted string not terminated" { s with input := [] }

/-- `read_true` (parsex.c lines 151-158). -/
def read_true (s : PState) : PState :=
  match reader_expect [114, 117, 101] s.input with
  | (true, r) => add_value { s with input := r }
  | (false, r) => oj_set_error_atx "expected true" { s with input := r }

/-- `read_false` (parsex.c lines 160-167). -/
def read_false (s : PState) : PState :=
  match reader_expect [97, 108, 115, 101] s.input with
  | (true, r) => add_value { s with input := r }
  | (false, r) => oj_set_error_atx "expected false" { s with input := r }

/-- The `'n'` dispatcher case (parsex.c lines 611-646): `null`, or `NaN`
spelled with a leading lowercase `n`, or an error. -/
def null_or_nan (s : PState) : PState :=
  let p := rget s.input
  if p.1 = 117 then
    match reader_expect [108, 108] p.2 with
    | (true, r) => add_value { s with input := r }
    | (false, r) => oj_set_error_atx "expected null" { s with input := r }
  else if p.1 = 97 then
    let p2 := rget p.2
    if p2.1 = 78 ∨ p2.1 = 110 then add_num_value { s with input := p2.2 }
    else oj_set_error_atx "expected NaN" { s with input := p2.2 }
  else oj_set_error_atx "invalid token" { s with input := p.2 }

/-- `array_start` (parsex.c lines 490-495). -/
def array_start (s : PState) : PState :=
  { s with stack := { next := NextSt.ARRAY_NEW, key := none } :: s.stack }

/-- `array_end` (parsex.c lines 497-509): the top frame is popped *before*
validation (`stack_pop`), so an ill-placed `]` still removes it. -/
def array_end (s : PState) : PState :=
  match s.stack with
  | [] => oj_set_error_atx "unexpected array close" s
  | f :: r =>
    if f.next ≠ NextSt.ARRAY_COMMA ∧ f.next ≠ NextSt.ARRAY_NEW then
      oj_set_error_atx ("expected " ++ nextString f.next ++ ", not an array close")
        { s with stack := r }
    else add_value { s with stack := r }

/-- `hash_start` (parsex.c lines 511-516). -/
def hash_start (s : PState) : PState :=
  { s with stack := { next := NextSt.HASH_NEW, key := none } :: s.stack }

/-- `hash_end` (parsex.c lines 518-532): the top frame is only peeked; it is
popped after validation succeeds. -/
def hash_end (s : PState) : PState :=
  match s.stack with
  | [] => oj_set_error_atx "unexpected hash close" s
  | f :: r =>
    if f.next ≠ NextSt.HASH_COMMA ∧ f.next ≠ NextSt.HASH_NEW then
      oj_set_error_atx ("expected " ++ nextString f.next ++ ", not a hash close") s
    else add_value { s with stack := r }

/-- `comma` (parsex.c lines 534-547). -/
def comma (s : PState) : PState :=
  match s.stack with
  | [] => oj_set_error_atx "unexpected comma" s
  | f :: r =>
    if f.next = NextSt.ARRAY_COMMA then
      { s with stack := { f with next := .ARRAY_ELEMENT } :: r }
    else if f.next = NextSt.HASH_COMMA then
      { s with stack := { f with next := .HASH_KEY } :: r }
    else oj_set_error_atx "unexpected comma" s

/-- `colon` (parsex.c lines 549-558). -/
def colon (s : PState) : PState :=
  match s.stack with
  | f :: r =>
    if f.next = NextSt.HASH_COLON then
      { s with stack := { f with next := .HASH_VALUE } :: r }
    else oj_set_error_atx "unexpected colon" s
  | [] => oj_set_error_atx "unexpected colon" s

/-- Line-comment scan of `skip_comment` (parsex.c lines 66-77): consume
until a line terminator; `true` means the loop stopped at end-of-input (the
`while` condition saw the sentinel), in which case control falls through to
the `'\0' == c` check at line 81. -/
def line_loop : List Nat → Bool × List Nat
  | [] => (true, [])
  | c :: r => if c = 10 ∨ c = 13 ∨ c = 12 then (false, r) else line_loop r

/-- Block-comment scan of `skip_comment` (parsex.c lines 57-65): after a
`*`, the very next character is compared against `/`; on a miss the loop
re-reads from the following character.  `none` means end-of-input was
reached before `*/`. -/
def block_loop : List Nat → Option (List Nat)
  | [] => none
  | c :: r =>
    if c = 42 then
      match r with
      | [] => none
      | c2 :: r2 => if c2 = 47 then some r2 else block_loop r2
    else block_loop r

/-- `skip_comment` (parsex.c lines 53-85), entered after the leading `/`.
Note the final `'\0' == c` check applies to every path that falls through,
including the line-comment loop stopping at end-of-input and the
invalid-format branch when the character after `/` was the sentinel. -/
def skip_comment (s : PState) : PState :=
  match s.input with
  | [] =>
    oj_set_error_atx "comment not terminated"
      (oj_set_error_atx "invalid comment format" { s with input := [] })
  | c :: r =>
    if c = 42 then
      match block_loop r with
      | some rest => { s with input := rest }
      | none => oj_set_error_atx "comment not terminated" { s with input := [] }
    else if c = 47 then
      match line_loop r with
      | (false, rest) => { s with input := rest }
      | (true, _) => oj_set_error_atx "comment not terminated" { s with input := [] }
    else
      oj_set_error_atx "invalid comment format" { s with input := r }

/-- One arm of the `oj_parse2x` dispatch switch (parsex.c lines 567-655) for
a significant character `c` already consumed. -/
def dispatch (c : Nat) (s : PState) : PState :=
  if c = 123 then hash_start s
  else if c = 125 then hash_end s
  else if c = 58 then colon s
  else if c = 91 then array_start s
  else if c = 93 then array_end s
  else if c = 44 then comma s
  else if c = 34 then read_str s
  else if c = 43 ∨ c = 45 ∨ (48 ≤ c ∧ c ≤ 57) ∨ c = 73 ∨ c = 78 then
    match read_num c s.input s.opts with
    | .error e => oj_set_error_atx e s
    | .ok (_, r) => add_num_value { s with input := r }
  else if c = 116 then read_true s
  else if c = 102 then read_false s
  else if c = 110 then null_or_nan s
  else if c = 47 then skip_comment s
  else oj_set_error_atx "unexpected character" s

/-- The main loop of `oj_parse2x` (parsex.c lines 565-673): read the next
significant character, dispatch, and stop at end-of-input or as soon as the
error slot is set.  The streaming `proc` yield block is not modelled (the
default `Qundef` proc skips it).  Every iteration consumes at least the
significant character, so `input.length + 1` fuel always suffices. -/
def parse_loop : Nat → PState → PState
  | 0, s => s
  | fuel + 1, s =>
    match next_non_white s.input with
    | (c, r) =>
      if c = 0 then { s with input := r }
      else
        let s2 := dispatch c { s with input := r }
        if err_has s2 then s2 else parse_loop fuel s2

/-- `oj_parse2x` (parsex.c lines 560-674): initialize the error slot and run
the dispatcher loop. -/
def oj_parse2x (s : PState) : PState :=
  parse_loop (s.input.length + 1) { s with errs := [] }

/-- The end-of-parse check of `oj_pi_parsex` (parsex.c lines 795-817): if no
error was recorded and the stack is not empty, record a not-terminated error
specialized by the top frame's expected-next state. -/
def finish_check (s : PState) : PState :=
  if s.errs ≠ [] then s
  else
    match s.stack with
    | [] => s
    | f :: _ =>
      match f.next with
      | .ARRAY_NEW | .ARRAY_ELEMENT | .ARRAY_COMMA =>
        oj_set_error_atx "Array not terminated" s
      | .HASH_NEW | .HASH_KEY | .HASH_COLON | .HASH_VALUE | .HASH_COMMA =>
        oj_set_error_atx "Hash/Object not terminated" s
      | .NONE => oj_set_error_atx "not terminated" s

/-- Fresh parse state over an input. -/
def initPS (input : List Nat) (opts : BigdecLoad) : PState :=
  { input := input, stack := [], errs := [], opts := opts }

/-- The parse pipeline of `oj_pi_parsex` (parsex.c lines 752-833) as far as
error recording is concerned: run the dispatcher loop, then the
end-of-parse not-terminated check. -/
def oj_pi_parsex (input : List Nat) (opts : BigdecLoad) : PState :=
  finish_check (oj_parse2x (initPS input opts))

deriving instance DecidableEq for Except

/-- Standard variable-length UTF-8 encoding of a code point, written from
the spec's words in plain arithmetic (leading byte plus 6-bit continuation
groups): 1-4 bytes for code points up to `0x1FFFFF` and the legacy 5- and
6-byte forms of the historical definition above that. -/
def utf8_spec (code : Nat) : List Nat :=
  if code < 128 then [code]
  else if code < 2048 then [192 + code / 64, 128 + code % 64]
  else if code < 65536 then [224 + code / 4096, 128 + code / 64 % 64, 128 + code % 64]
  else if code < 2097152 then
    [240 + code / 262144, 128 + code / 4096 % 64, 128 + code / 64 % 64, 128 + code % 64]
  else if code < 67108864 then
    [248 + code / 16777216, 128 + code / 262144 % 64, 128 + code / 4096 % 64,
     128 + code / 64 % 64, 128 + code % 64]
  else
    [252 + code / 1073741824, 128 + code / 16777216 % 64, 128 + code / 262144 % 64,
     128 + code / 4096 % 64, 128 + code / 64 % 64, 128 + code % 64]

/-- Value of a decimal digit list continuing an accumulator, as the digit
loops accumulate: `a := a * 10 + d`. -/
def digitsValFrom (a : Nat) (D : List Nat) : Nat :=
  D.foldl (fun x d => x * 10 + d) a

/-- Value of a decimal digit list. -/
def digitsVal (D : List Nat) : Nat := digitsValFrom 0 D

/-- The trailing-zero run length after processing a digit list, continuing
a run of `zc`: reset on a nonzero digit, incremented on a zero. -/
def tzrun (zc : Nat) (D : List Nat) : Nat :=
  D.foldl (fun z d => if d = 0 then z + 1 else 0) zc

/-- ASCII characters of a digit list. -/
def digitChars (D : List Nat) : List Nat := D.map (fun d => d + 48)

/-- Characters of an optional sign: `-`, `+`, or nothing. -/
def signChars : Option Bool → List Nat
  | none => []
  | some true => [45]
  | some false => [43]

/-- Characters of an optional fraction part: `.` followed by its digits. -/
def fracChars : Option (List Nat) → List Nat
  | none => []
  | some F2 => 46 :: digitChars F2

/-- Characters of an optional exponent part: the marker (`e` or `E`), an
optional sign and the digits. -/
def expChars (ec : Nat) : Option (Option Bool × List Nat) → List Nat
  | none => []
  | some (es, E2) => ec :: (signChars es ++ digitChars E2)

/-- Whether an optional sign is the minus sign. -/
def negOf : Option Bool → Bool
  | some true => true
  | _ => false

/-- Digits of an optional exponent part. -/
def expDigits : Option (Option Bool × List Nat) → List Nat
  | none => []
  | some p => p.2

/-- Whether an optional exponent part carries a minus sign. -/
def expNeg : Option (Option Bool × List Nat) → Bool
  | some (some true, _) => true
  | _ => false

/-- Text of a well-formed decimal literal: optional sign, integer digits,
optional `.` and fraction digits, optional exponent marker (`e` or `E`) with
optional sign and digits. -/
def litText (sgn : Option Bool) (I : List Nat) (F : Option (List Nat)) (ec : Nat)
    (E : Option (Option Bool × List Nat)) : List Nat :=
  signChars sgn ++ digitChars I ++ fracChars F ++ expChars ec E

/-- Mathematical value of a decimal literal with sign `neg`, integer digits
`I`, fraction digits `F` and signed exponent digits `E`. -/
def mathVal (neg : Bool) (I F : List Nat) (eneg : Bool) (E : List Nat) : ℚ :=
  (if neg then -1 else 1) * ((digitsVal I : ℚ) + (digitsVal F : ℚ) / 10 ^ F.length) *
    10 ^ (if eneg then -(digitsVal E : ℤ) else (digitsVal E : ℤ))

/-- `read_num` invoked as the dispatcher does: on the first character of the
remaining input (parsex.c line 603). -/
def read_num_from (L : List Nat) (opts : BigdecLoad) : Except String (NumInfo × List Nat) :=
  read_num (rget L).1 (rget L).2 opts

/-- The `NumInfo` fields that none of the three digit loops of `read_num`
modify. -/
def core_same (x y : NumInfo) : Prop :=
  x.str = y.str ∧ x.exp = y.exp ∧ x.len = y.len ∧ x.neg = y.neg ∧
  x.nan = y.nan ∧ x.infinity = y.infinity ∧ x.no_big = y.no_big

/-- C3 counterexample: on the input `/` (a slash at end-of-input),
`skip_comment` records "invalid comment format" and then the fall-through
end-of-input check records "comment not terminated" over it, so the error
reported at the end (the slot's head) is the second error, not the first:
the first recorded error does not win. -/
theorem C3_counterexample :
    (oj_pi_parsex [47] BigdecLoad.AutoDec).errs =
      ["comment not terminated", "invalid comment format"] ∧
    ("comment not terminated" : String) ≠ "invalid comment format" := by
  decide

/-- C3 (amended): `oj_set_error_atx` writes the error slot unconditionally,
so of several errors recorded in the failing dispatcher step the last one is
the error reported; on the input `/` two errors are recorded and the
reported slot content is the later "comment not terminated" while the first
recorded error was "invalid comment format". -/
theorem C3_last_error_wins :
    (∀ (m1 m2 : String) (s : PState),
        ((oj_set_error_atx m2 (oj_set_error_atx m1 s)).errs).head? = some m2) ∧
    ((oj_pi_parsex [47] BigdecLoad.AutoDec).errs).head? = some "comment not terminated" ∧
    ((oj_pi_parsex [47] BigdecLoad.AutoDec).errs).getLast? = some "invalid comment format" := by
  refine ⟨fun m1 m2 s => rfl, by decide, by decide⟩

/-- C5: a `//` line comment that reaches end-of-input *does* record a
"comment not terminated" error (the dead `case '\0'` inside the line loop is
unreachable, so control falls through to the end-of-input check), diverging
from the claim; the block-comment end-of-input error and the
invalid-comment-format error behave as claimed, and a line comment ended by
a newline is error-free. -/
theorem C5_line_comment_eof : 
    (oj_pi_parsex [47, 47, 120] BigdecLoad.AutoDec).errs = ["comment not terminated"] ∧
    (oj_pi_parsex [47, 47, 120, 10, 49] BigdecLoad.AutoDec).errs = [] ∧
    (oj_pi_parsex [47, 42, 120] BigdecLoad.AutoDec).errs = ["comment not terminated"] ∧
    (oj_pi_parsex [47, 42, 120, 42, 47, 49] BigdecLoad.AutoDec).errs = [] ∧
    (oj_pi_parsex [47, 121] BigdecLoad.AutoDec).errs = ["invalid comment format"] := by
  decide

/-- C6: the digit loop of `read_num` consumes the character that terminates
the literal without backing up, so in `[1,]` the comma is swallowed as the
number's terminator and the comma/colon validators never see it: `[1,]` and
the object analogue parse successfully with an empty stack and no error,
although the claim (and the spec) say they are rejected; `[1 2]` and a
missing colon are rejected with structural errors. -/
theorem C6_trailing_comma_accepted :
    (oj_pi_parsex [91, 49, 44, 93] BigdecLoad.AutoDec).errs = [] ∧
    (oj_pi_parsex [91, 49, 44, 93] BigdecLoad.AutoDec).stack = [] ∧
    (oj_pi_parsex [123, 34, 97, 34, 58, 49, 44, 125] BigdecLoad.AutoDec).errs = [] ∧
    (oj_pi_parsex [91, 49, 32, 50, 93] BigdecLoad.AutoDec).errs =
      ["expected array comma or close"] ∧
    (oj_pi_parsex [123, 34, 97, 34, 32, 49, 125] BigdecLoad.AutoDec).errs =
      ["expected hash colon"] := by
  decide

/-- C9: entered on a bare sign with no digit following, `read_num` records
no error and returns a `NumInfo` with integer accumulator 0, empty fraction
(`num = 0`, `div = 1`) and zero exponent, which `oj_num_as_valuex` turns
into the fixnum 0; the whole inputs `-` and `+` parse without error. -/
theorem C9_sign_only_is_zero :
    read_num 45 [] BigdecLoad.AutoDec =
      .ok ({ str := [45], i := 0, num := 0, div := 1, len := 1, exp := 0, dec_cnt := 0,
             big := 0, infinity := false, nan := false, neg := true, no_big := false }, []) ∧
    read_num 43 [] BigdecLoad.AutoDec =
      .ok ({ str := [43], i := 0, num := 0, div := 1, len := 1, exp := 0, dec_cnt := 0,
             big := 0, infinity := false, nan := false, neg := false, no_big := false }, []) ∧
    oj_num_as_valuex { str := [45], i := 0, num := 0, div := 1, len := 1, exp := 0,
                       dec_cnt := 0, big := 0, infinity := false, nan := false,
                       neg := true, no_big := false } = .fix 0 ∧
    oj_num_as_valuex { str := [43], i := 0, num := 0, div := 1, len := 1, exp := 0,
                       dec_cnt := 0, big := 0, infinity := false, nan := false,
                       neg := false, no_big := false } = .fix 0 ∧
    (oj_pi_parsex [45] BigdecLoad.AutoDec).errs = [] ∧
    (oj_pi_parsex [43] BigdecLoad.AutoDec).errs = [] := by
  decide

/-- C10: after a leading sign, an `N` or lowercase `n` enters the NaN path
of `read_num` requiring `a` then `N`/`n`, so `-nan` and `+NaN` lex
successfully with the nan flag set; and `oj_num_as_valuex` maps every
NaN-flagged literal (the infinity flag being clear, as the lexer leaves it)
to the not-a-number float regardless of the negative flag. -/
theorem C10_signed_nan :
    (∀ ni : NumInfo, ni.infinity = false → ni.nan = true → oj_num_as_valuex ni = .nanF) ∧
    read_num 45 [110, 97, 110] BigdecLoad.AutoDec =
      .ok ({ str := [45, 110, 97, 110], i := 0, num := 0, div := 1, len := 0, exp := 0,
             dec_cnt := 0, big := 0, infinity := false, nan := true, neg := true,
             no_big := false }, []) ∧
    read_num 43 [78, 97, 78] BigdecLoad.AutoDec =
      .ok ({ str := [43, 78, 97, 78], i := 0, num := 0, div := 1, len := 0, exp := 0,
             dec_cnt := 0, big := 0, infinity := false, nan := true, neg := false,
             no_big := false }, []) ∧
    (oj_pi_parsex [45, 110, 97, 110] BigdecLoad.AutoDec).errs = [] ∧
    (oj_pi_parsex [43, 78, 97, 78] BigdecLoad.AutoDec).errs = [] := by
  refine ⟨fun ni h1 h2 => ?_, by decide, by decide, by decide, by decide⟩
  simp [oj_num_as_valuex, h1, h2]

/-- C10 witness: the general NaN-value clause applied to the `NumInfo`
produced for `-nan`. -/
theorem C10_signed_nan_witness :
    oj_num_as_valuex { str := [45, 110, 97, 110], i := 0, num := 0, div := 1, len := 0,
                       exp := 0, dec_cnt := 0, big := 0, infinity := false, nan := true,
                       neg := true, no_big := false } = .nanF :=
  C10_signed_nan.1 _ rfl rfl

/-- C4: when the dispatcher loop reaches end-of-input with no recorded error
and a non-empty nesting stack, the end-of-parse check records an error whose
message is chosen by the top frame's expected-next state: an
array-not-terminated message for the array states and a
hash/object-not-terminated message for the object states. -/
theorem C4_eof_unterminated (input : List Nat) (opts : BigdecLoad) (f : Frame)
    (r : List Frame)
    (herr : (oj_parse2x (initPS input opts)).errs = [])
    (hstack : (oj_parse2x (initPS input opts)).stack = f :: r) :
    ((f.next = NextSt.ARRAY_NEW ∨ f.next = NextSt.ARRAY_ELEMENT ∨
      f.next = NextSt.ARRAY_COMMA) →
      (oj_pi_parsex input opts).errs = ["Array not terminated"]) ∧
    ((f.next = NextSt.HASH_NEW ∨ f.next = NextSt.HASH_KEY ∨
      f.next = NextSt.HASH_COLON ∨ f.next = NextSt.HASH_VALUE ∨
      f.next = NextSt.HASH_COMMA) →
      (oj_pi_parsex input opts).errs = ["Hash/Object not terminated"]) := by
  constructor
  · intro h
    rcases h with h | h | h <;>
      simp [oj_pi_parsex, finish_check, herr, hstack, h, oj_set_error_atx]
  · intro h
    rcases h with h | h | h | h | h <;>
      simp [oj_pi_parsex, finish_check, herr, hstack, h, oj_set_error_atx]

/-- C4 witness: the unterminated inputs `[` and `{` receive the
array-specific and hash-specific messages. -/
theorem C4_eof_unterminated_witness :
    (oj_pi_parsex [91] BigdecLoad.AutoDec).errs = ["Array not terminated"] ∧
    (oj_pi_parsex [123] BigdecLoad.AutoDec).errs = ["Hash/Object not terminated"] :=
  ⟨(C4_eof_unterminated [91] BigdecLoad.AutoDec ⟨NextSt.ARRAY_NEW, none⟩ []
      (by decide) (by decide)).1 (Or.inl rfl),
   (C4_eof_unterminated [123] BigdecLoad.AutoDec ⟨NextSt.HASH_NEW, none⟩ []
      (by decide) (by decide)).2 (Or.inl rfl)⟩

/-- C8 counterexample: on `{]` the `]` arrives while the top frame is in the
HASH_NEW state, where an array close is illegal; an error is recorded but
the frame has been popped (`stack_pop` runs before validation), so the
nesting stack is *not* left unchanged — it went from one frame (as after `{`
alone) to empty. -/
theorem C8_counterexample :
    (oj_parse2x (initPS [123] BigdecLoad.AutoDec)).stack =
      [{ next := NextSt.HASH_NEW, key := none }] ∧
    (oj_parse2x (initPS [123, 93] BigdecLoad.AutoDec)).errs =
      ["expected hash key or close, not an array close"] ∧
    (oj_parse2x (initPS [123, 93] BigdecLoad.AutoDec)).stack = [] := by
  decide

/-- C8 (amended): `hash_end` only peeks at the top frame, so an ill-placed
`}` records an error and leaves the stack unchanged; `array_end` pops the
top frame before validating, so an ill-placed `]` records an error and
removes the top frame; a close with no frame present records an error on the
empty stack. -/
theorem C8_close_behavior :
    (∀ (s : PState) (f : Frame) (r : List Frame), s.stack = f :: r →
       f.next ≠ NextSt.ARRAY_COMMA → f.next ≠ NextSt.ARRAY_NEW →
       array_end s =
         oj_set_error_atx ("expected " ++ nextString f.next ++ ", not an array close")
           { s with stack := r } ∧
       (array_end s).stack = r) ∧
    (∀ (s : PState) (f : Frame) (r : List Frame), s.stack = f :: r →
       f.next ≠ NextSt.HASH_COMMA → f.next ≠ NextSt.HASH_NEW →
       hash_end s =
         oj_set_error_atx ("expected " ++ nextString f.next ++ ", not a hash close") s ∧
       (hash_end s).stack = s.stack) ∧
    (∀ s : PState, s.stack = [] →
       array_end s = oj_set_error_atx "unexpected array close" s ∧
       hash_end s = oj_set_error_atx "unexpected hash close" s) := by
  refine ⟨?_, ?_, ?_⟩
  · intro s f r hs h1 h2
    constructor <;> simp [array_end, hs, h1, h2, oj_set_error_atx]
  · intro s f r hs h1 h2
    constructor <;> simp [hash_end, hs, h1, h2, oj_set_error_atx]
  · intro s hs
    constructor <;> simp [array_end, hash_end, hs, oj_set_error_atx]

/-- C8 witness: the amended close behavior applied at a concrete state with
a HASH_NEW top frame hit by `]`. -/
theorem C8_close_behavior_witness :
    array_end ⟨[], [⟨NextSt.HASH_NEW, none⟩], [], BigdecLoad.AutoDec⟩ =
      oj_set_error_atx ("expected " ++ nextString NextSt.HASH_NEW ++ ", not an array close")
        ⟨[], [], [], BigdecLoad.AutoDec⟩ ∧
    (array_end ⟨[], [⟨NextSt.HASH_NEW, none⟩], [], BigdecLoad.AutoDec⟩).stack = [] :=
  C8_close_behavior.1 ⟨[], [⟨NextSt.HASH_NEW, none⟩], [], BigdecLoad.AutoDec⟩
    ⟨NextSt.HASH_NEW, none⟩ [] rfl (by decide) (by decide)

/-- Shift by 6 is division by 64. -/
theorem shr6 (x : Nat) : x >>> 6 = x / 64 := by
  rw [Nat.shiftRight_eq_div_pow]

/-- Shift by 12 is division by 4096. -/
theorem shr12 (x : Nat) : x >>> 12 = x / 4096 := by
  rw [Nat.shiftRight_eq_div_pow]

/-- Shift by 18 is division by 262144. -/
theorem shr18 (x : Nat) : x >>> 18 = x / 262144 := by
  rw [Nat.shiftRight_eq_div_pow]

/-- Shift by 24 is division by 16777216. -/
theorem shr24 (x : Nat) : x >>> 24 = x / 16777216 := by
  rw [Nat.shiftRight_eq_div_pow]

/-- Shift by 30 is division by 1073741824. -/
theorem shr30 (x : Nat) : x >>> 30 = x / 1073741824 := by
  rw [Nat.shiftRight_eq_div_pow]

/-- Masking with 63 is reduction modulo 64. -/
theorem and63 (x : Nat) : x &&& 63 = x % 64 := by
  have h := Nat.and_pow_two_sub_one_eq_mod x 6
  norm_num at h
  exact h

/-- Masking with 63 on the left is reduction modulo 64. -/
theorem and63L (x : Nat) : 63 &&& x = x % 64 := by
  rw [Nat.land_comm]; exact and63 x

/-- Masking with 1023 is reduction modulo 1024. -/
theorem and1023 (x : Nat) : x &&& 1023 = x % 1024 := by
  have h := Nat.and_pow_two_sub_one_eq_mod x 10
  norm_num at h
  exact h

/-- Disjoint or with the 2-byte leading bits is addition. -/
theorem lor192 : ∀ x < 64, 192 ||| x = 192 + x := by decide

/-- Disjoint or with the continuation-byte bits is addition. -/
theorem lor128 : ∀ x < 64, 128 ||| x = 128 + x := by decide

/-- Disjoint or with the 3-byte leading bits is addition. -/
theorem lor224 : ∀ x < 16, 224 ||| x = 224 + x := by decide

/-- Disjoint or with the 4-byte leading bits is addition. -/
theorem lor240 : ∀ x < 8, 240 ||| x = 240 + x := by decide

/-- Disjoint or with the 5-byte leading bits is addition. -/
theorem lor248 : ∀ x < 4, 248 ||| x = 248 + x := by decide

/-- Disjoint or with the 6-byte leading bits is addition. -/
theorem lor252 : ∀ x < 2, 252 ||| x = 252 + x := by decide

/-- A left shift ored with a small value is multiply-and-add. -/
theorem shiftLeft_lor_eq_add (a b i : Nat) (hb : b < 2 ^ i) :
    (a <<< i) ||| b = a * 2 ^ i + b := by
  rw [Nat.shiftLeft_eq, Nat.mul_comm, ← Nat.mul_add_lt_is_or hb, Nat.mul_comm]

/-- C7: `unicode_to_chars` produces the standard variable-length UTF-8
encoding (in its arithmetic formulation) for every representable code point
— 1 to 4 bytes up to `0x1FFFFF` and the legacy 5- and 6-byte forms up to
`0x7FFFFFFF` — and the escape decoder turns the escape for `A` into the
single byte `A` and the valid surrogate pair `D83D`/`DE00` into the 4-byte
UTF-8 encoding `F0 9F 98 80` of `U+1F600`. -/
theorem C7_utf8_encoding :
    (∀ code : Nat, code ≤ 2147483647 → unicode_to_chars code = .ok (utf8_spec code)) ∧
    esc_loop 20 [] [92, 117, 48, 48, 52, 49, 34] = .ok ([65], []) ∧
    esc_loop 20 [] [92, 117, 68, 56, 51, 68, 92, 117, 68, 69, 48, 48, 34] =
      .ok ([240, 159, 152, 128], []) := by
  refine ⟨fun code h => ?_, by decide, by decide⟩
  by_cases h1 : code ≤ 127
  · simp [unicode_to_chars, utf8_spec, h1, show code < 128 by omega]
  · by_cases h2 : code ≤ 2047
    · have e1 : 192 ||| code / 64 = 192 + code / 64 := lor192 _ (by omega)
      have e2 : 128 ||| code % 64 = 128 + code % 64 := lor128 _ (by omega)
      simp only [unicode_to_chars, utf8_spec, shr6, and63L, e1, e2]
      simp [h1, h2, show ¬ code < 128 by omega, show code < 2048 by omega]
    · by_cases h3 : code ≤ 65535
      · have e1 : 224 ||| code / 4096 = 224 + code / 4096 := lor224 _ (by omega)
        have e2 : 128 ||| code / 64 % 64 = 128 + code / 64 % 64 := lor128 _ (by omega)
        have e3 : 128 ||| code % 64 = 128 + code % 64 := lor128 _ (by omega)
        simp only [unicode_to_chars, utf8_spec, shr6, shr12, and63, and63L, e1, e2, e3]
        simp [h1, h2, h3, show ¬ code < 128 by omega, show ¬ code < 2048 by omega,
          show code < 65536 by omega]
      · by_cases h4 : code ≤ 2097151
        · have e1 : 240 ||| code / 262144 = 240 + code / 262144 := lor240 _ (by omega)
          have e2 : 128 ||| code / 4096 % 64 = 128 + code / 4096 % 64 := lor128 _ (by omega)
          have e3 : 128 ||| code / 64 % 64 = 128 + code / 64 % 64 := lor128 _ (by omega)
          have e4 : 128 ||| code % 64 = 128 + code % 64 := lor128 _ (by omega)
          simp only [unicode_to_chars, utf8_spec, shr6, shr12, shr18, and63, and63L,
            e1, e2, e3, e4]
          simp [h1, h2, h3, h4, show ¬ code < 128 by omega, show ¬ code < 2048 by omega,
            show ¬ code < 65536 by omega, show code < 2097152 by omega]
        · by_cases h5 : code ≤ 67108863
          · have e1 : 248 ||| code / 16777216 = 248 + code / 16777216 := lor248 _ (by omega)
            have e2 : 128 ||| code / 262144 % 64 = 128 + code / 262144 % 64 :=
              lor128 _ (by omega)
            have e3 : 128 ||| code / 4096 % 64 = 128 + code / 4096 % 64 := lor128 _ (by omega)
            have e4 : 128 ||| code / 64 % 64 = 128 + code / 64 % 64 := lor128 _ (by omega)
            have e5 : 128 ||| code % 64 = 128 + code % 64 := lor128 _ (by omega)
            simp only [unicode_to_chars, utf8_spec, shr6, shr12, shr18, shr24, and63,
              and63L, e1, e2, e3, e4, e5]
            simp [h1, h2, h3, h4, h5, show ¬ code < 128 by omega,
              show ¬ code < 2048 by omega, show ¬ code < 65536 by omega,
              show ¬ code < 2097152 by omega, show code < 67108864 by omega]
          · have e1 : 252 ||| code / 1073741824 = 252 + code / 1073741824 :=
              lor252 _ (by omega)
            have e2 : 128 ||| code / 16777216 % 64 = 128 + code / 16777216 % 64 :=
              lor128 _ (by omega)
            have e3 : 128 ||| code / 262144 % 64 = 128 + code / 262144 % 64 :=
              lor128 _ (by omega)
            have e4 : 128 ||| code / 4096 % 64 = 128 + code / 4096 % 64 := lor128 _ (by omega)
            have e5 : 128 ||| code / 64 % 64 = 128 + code / 64 % 64 := lor128 _ (by omega)
            have e6 : 128 ||| code % 64 = 128 + code % 64 := lor128 _ (by omega)
            simp only [unicode_to_chars, utf8_spec, shr6, shr12, shr18, shr24, shr30,
              and63, and63L, e1, e2, e3, e4, e5, e6]
            simp [h1, h2, h3, h4, h5, h, show ¬ code < 128 by omega,
              show ¬ code < 2048 by omega, show ¬ code < 65536 by omega,
              show ¬ code < 2097152 by omega, show ¬ code < 67108864 by omega]

/-- C7 witness: the encoding equality applied at the emoji code point
`U+1F600`. -/
theorem C7_utf8_encoding_witness :
    unicode_to_chars 128512 = .ok (utf8_spec 128512) :=
  C7_utf8_encoding.1 128512 (by decide)

/-- C2 counterexample: in the escape decoder the code unit `0x0041` is not a
low surrogate, yet decoding the sequence `\uD83DA` (then the closing
quote) succeeds with no error, mis-combining the units into the code point
`0x1F441` instead of failing; the claim's demand that decoding fail when the
second code unit is not a low surrogate is false.  At the dispatcher level
the whole document also parses without error. -/
theorem C2_counterexample :
    (65 : Nat) < 56320 ∧
    esc_loop 20 [] [92, 117, 68, 56, 51, 68, 92, 117, 48, 48, 52, 49, 34] =
      .ok ([240, 159, 145, 129], []) ∧
    (oj_pi_parsex [34, 92, 117, 68, 56, 51, 68, 92, 117, 48, 48, 52, 49, 34]
      BigdecLoad.AutoDec).errs = [] := by
  decide

/-- C2 (amended): a `\uXXXX` code unit in the surrogate range
`0xD800..0xDFFF` must be followed by the two characters `\` and `u` — any
other pair of following characters (or end-of-input) is an
invalid-escaped-character error; the second 4-hex code unit `v` is then read
*without* validating that it is a low surrogate and the pair is combined via
`(((first − 0xD800) & 0x3FF) << 10 | ((v − 0xDC00) & 0x3FF)) + 0x10000` in
wrapping 32-bit arithmetic, which for a genuine high/low surrogate pair
equals the claimed `((high − 0xD800) << 10 | (low − 0xDC00)) + 0x10000`
computed as plain addition of the disjoint bit groups. -/
theorem C2_surrogate_pairing :
    (∀ (code c1 c2 : Nat) (r : List Nat), 55296 ≤ code → code ≤ 57343 →
       c1 ≠ 92 ∨ c2 ≠ 117 →
       esc_u code (c1 :: c2 :: r) = .error "invalid escaped character") ∧
    (∀ code : Nat, 55296 ≤ code → code ≤ 57343 →
       esc_u code [] = .error "invalid escaped character") ∧
    (∀ (code v : Nat) (d1 d2 d3 d4 : Nat) (r : List Nat), 55296 ≤ code →
       code ≤ 57343 → read_hex (d1 :: d2 :: d3 :: d4 :: r) = .ok (v, r) →
       esc_u code (92 :: 117 :: d1 :: d2 :: d3 :: d4 :: r) =
         .ok (((((sub32 code 55296) &&& 1023) <<< 10) |||
                ((sub32 v 56320) &&& 1023)) + 65536, r)) ∧
    (∀ code v : Nat, 55296 ≤ code → code ≤ 56319 → 56320 ≤ v → v ≤ 57343 →
       ((((sub32 code 55296) &&& 1023) <<< 10) ||| ((sub32 v 56320) &&& 1023)) + 65536 =
         (code - 55296) * 1024 + (v - 56320) + 65536) := by
  refine ⟨?_, ?_, ?_, ?_⟩
  · intro code c1 c2 r hlo hhi hne
    rcases hne with hne | hne <;>
      simp [esc_u, rget, hlo, hhi, hne]
  · intro code hlo hhi
    simp [esc_u, rget, hlo, hhi, show (0 : Nat) ≠ 92 by decide]
  · intro code v d1 d2 d3 d4 r hlo hhi hhex
    simp [esc_u, rget, hlo, hhi, hhex]
  · intro code v h1 h2 h3 h4
    have s1 : sub32 code 55296 = code - 55296 := by unfold sub32; omega
    have s2 : sub32 v 56320 = v - 56320 := by unfold sub32; omega
    have m1 : (code - 55296) &&& 1023 = code - 55296 := by
      rw [and1023]; omega
    have m2 : (v - 56320) &&& 1023 = v - 56320 := by
      rw [and1023]; omega
    rw [s1, s2, m1, m2, shiftLeft_lor_eq_add _ _ 10 (by omega)]
    norm_num

/-- C2 witness: the amended pairing rules applied at the high surrogate
`0xD83D`: a following `x` aborts with an error; following `A` (read as
the code unit `0x41` by `read_hex`) is accepted and combined; and the
combination formula for the genuine pair `0xD83D`/`0xDE00` is the plain
additive one. -/
theorem C2_surrogate_pairing_witness :
    esc_u 55357 [120, 34] = .error "invalid escaped character" ∧
    esc_u 55357 [92, 117, 48, 48, 52, 49, 34] =
      .ok (((((sub32 55357 55296) &&& 1023) <<< 10) |||
             ((sub32 65 56320) &&& 1023)) + 65536, [34]) ∧
    ((((sub32 55357 55296) &&& 1023) <<< 10) ||| ((sub32 56832 56320) &&& 1023)) + 65536 =
      (55357 - 55296) * 1024 + (56832 - 56320) + 65536 :=
  ⟨C2_surrogate_pairing.1 55357 120 34 [] (by decide) (by decide) (Or.inl (by decide)),
   C2_surrogate_pairing.2.2.1 55357 65 48 48 52 49 [34] (by decide) (by decide) (by decide),
   C2_surrogate_pairing.2.2.2 55357 56832 (by decide) (by decide) (by decide) (by decide)⟩

/-- Reader get on the empty input yields the sentinel. -/
@[simp] theorem rget_nil : rget [] = (0, []) := rfl

/-- Reader get on a cons. -/
@[simp] theorem rget_cons (c : Nat) (r : List Nat) : rget (c :: r) = (c, r) := rfl

/-- Digit characters of the empty list. -/
@[simp] theorem digitChars_nil : digitChars [] = [] := rfl

/-- Digit characters of a cons. -/
@[simp] theorem digitChars_cons (d : Nat) (D : List Nat) :
    digitChars (d :: D) = (d + 48) :: digitChars D := rfl

/-- Accumulated digit value of the empty list. -/
@[simp] theorem digitsValFrom_nil (a : Nat) : digitsValFrom a [] = a := rfl

/-- Accumulated digit value of a cons. -/
@[simp] theorem digitsValFrom_cons (a d : Nat) (D : List Nat) :
    digitsValFrom a (d :: D) = digitsValFrom (a * 10 + d) D := rfl

/-- Trailing-zero run of the empty list. -/
@[simp] theorem tzrun_nil (zc : Nat) : tzrun zc [] = zc := rfl

/-- Trailing-zero run of a cons. -/
@[simp] theorem tzrun_cons (zc d : Nat) (D : List Nat) :
    tzrun zc (d :: D) = tzrun (if d = 0 then zc + 1 else 0) D := rfl

/-- Trailing-zero runs compose over append. -/
theorem tzrun_append (zc : Nat) (A B : List Nat) :
    tzrun zc (A ++ B) = tzrun (tzrun zc A) B := by
  unfold tzrun
  exact List.foldl_append _ _ _ _

/-- The digit accumulator never decreases. -/
theorem digitsValFrom_le (a : Nat) (D : List Nat) : a ≤ digitsValFrom a D := by
  induction D generalizing a with
  | nil => simp
  | cons d D ih =>
    calc a ≤ a * 10 + d := by omega
    _ ≤ digitsValFrom (a * 10 + d) D := ih _
    _ = digitsValFrom a (d :: D) := rfl

/-- The trailing-zero run is bounded by the digit count it tracks. -/
theorem tzrun_le_add (zc dec : Nat) (D : List Nat) (h : zc ≤ dec) :
    tzrun zc D ≤ dec + D.length := by
  induction D generalizing zc dec with
  | nil => simpa using by omega
  | cons d D ih =>
    rw [tzrun_cons]
    by_cases hd : d = 0
    · rw [if_pos hd]
      have h2 := ih (zc + 1) (dec + 1) (by omega)
      simp only [List.length_cons]
      omega
    · rw [if_neg hd]
      have h2 := ih 0 (dec + 1) (by omega)
      simp only [List.length_cons]
      omega

/-- The significant-digit count `dec - zc` never decreases along a digit
run. -/
theorem sig_le (D : List Nat) (dec zc : Nat) (h : zc ≤ dec) :
    dec - zc ≤ (dec + D.length) - tzrun zc D := by
  induction D generalizing dec zc with
  | nil => simp
  | cons d D ih =>
    rw [tzrun_cons]
    by_cases hd : d = 0
    · rw [if_pos hd]
      simp only [List.length_cons]
      have h2 := ih (dec + 1) (zc + 1) (by omega)
      have h3 : dec + 1 + D.length = dec + (D.length + 1) := by omega
      rw [h3] at h2
      omega
    · rw [if_neg hd]
      simp only [List.length_cons]
      have h2 := ih (dec + 1) 0 (by omega)
      have h4 := tzrun_le_add 0 (dec + 1) D (by omega)
      omega

/-- A digit shifted into the ASCII range is a digit character. -/
theorem isDigit_add48 (d : Nat) (h : d < 10) : isDigit (d + 48) = true := by
  unfold isDigit
  simp only [Bool.and_eq_true, decide_eq_true_eq]
  omega

/-- The sentinel is not a digit character. -/
@[simp] theorem isDigit_zero : isDigit 0 = false := rfl

/-- Unfolding one digit iteration of the integer loop. -/
theorem int_loop_step (ni : NumInfo) (zc c : Nat) (L : List Nat) (hc : isDigit c = true) :
    int_loop ni zc c L =
      int_loop (int_step ni zc c).1 (int_step ni zc c).2 (rget L).1 (rget L).2 := by
  cases L with
  | nil => simp [int_loop, hc]
  | cons c2 tl => simp [int_loop, hc]

/-- Unfolding one digit iteration of the fractional loop. -/
theorem frac_loop_step (ni : NumInfo) (zc c : Nat) (L : List Nat) (hc : isDigit c = true) :
    frac_loop ni zc c L =
      frac_loop (frac_step ni zc c).1 (frac_step ni zc c).2 (rget L).1 (rget L).2 := by
  cases L with
  | nil => simp [frac_loop, hc]
  | cons c2 tl => simp [frac_loop, hc]

/-- Unfolding one digit iteration of the exponent loop. -/
theorem exp_loop_step (ni : NumInfo) (e c : Nat) (L : List Nat) (hc : isDigit c = true) :
    exp_loop ni e c L =
      exp_loop (exp_step ni e c).1 (exp_step ni e c).2 (rget L).1 (rget L).2 := by
  cases L with
  | nil => simp [exp_loop, hc]
  | cons c2 tl => simp [exp_loop, hc]

/-- A digit loop entered on a non-digit character returns immediately. -/
theorem int_loop_stop (ni : NumInfo) (zc : Nat) (S : List Nat)
    (hS : isDigit (rget S).1 = false) :
    int_loop ni zc (rget S).1 (rget S).2 = (ni, zc, (rget S).1, (rget S).2) := by
  cases S with
  | nil => simp [int_loop]
  | cons c r =>
    rw [rget_cons] at hS
    cases r with
    | nil => simp [int_loop, hS]
    | cons x tl => simp [int_loop, hS]

/-- The fractional loop entered on a non-digit character returns
immediately. -/
theorem frac_loop_stop (ni : NumInfo) (zc : Nat) (S : List Nat)
    (hS : isDigit (rget S).1 = false) :
    frac_loop ni zc (rget S).1 (rget S).2 = (ni, zc, (rget S).1, (rget S).2) := by
  cases S with
  | nil => simp [frac_loop]
  | cons c r =>
    rw [rget_cons] at hS
    cases r with
    | nil => simp [frac_loop, hS]
    | cons x tl => simp [frac_loop, hS]

/-- The exponent loop entered on a non-digit character returns
immediately. -/
theorem exp_loop_stop (ni : NumInfo) (e : Nat) (S : List Nat)
    (hS : isDigit (rget S).1 = false) :
    exp_loop ni e (rget S).1 (rget S).2 = (ni, e, (rget S).1, (rget S).2) := by
  cases S with
  | nil => simp [exp_loop]
  | cons c r =>
    rw [rget_cons] at hS
    cases r with
    | nil => simp [exp_loop, hS]
    | cons x tl => simp [exp_loop, hS]

/-- Core-field preservation is reflexive. -/
theorem core_same_refl (x : NumInfo) : core_same x x :=
  ⟨rfl, rfl, rfl, rfl, rfl, rfl, rfl⟩

/-- Core-field preservation is transitive. -/
theorem core_same_trans {x y z : NumInfo} (h1 : core_same x y) (h2 : core_same y z) :
    core_same x z := by
  obtain ⟨a1, a2, a3, a4, a5, a6, a7⟩ := h1
  obtain ⟨b1, b2, b3, b4, b5, b6, b7⟩ := h2
  exact ⟨a1.trans b1, a2.trans b2, a3.trans b3, a4.trans b4, a5.trans b5,
         a6.trans b6, a7.trans b7⟩



/-- `s64` is the identity on values already in the signed 64-bit range:
wrapping only matters on overflow. -/
theorem s64_of_small (x : Int) (h0 : 0 ≤ x) (h1 : x < 9223372036854775808) :
    s64 x = x := by
  unfold s64
  omega

/-- Full characterization of the integer digit loop of `read_num` over a
digit run `D` followed by input `S` whose first character is not a digit:
the loop consumes exactly the digit characters, advances the
significant-digit count, leaves the fraction/exponent fields alone and
never clears `big`; when `big` ends up clear the trailing-zero run was
tracked throughout and the final threshold check passed; and when the
ideal accumulated value stays below `LONG_MAX` (so the wrapping `s64`
arithmetic never actually wraps) and the significant digits stay within
budget, `big` stays clear and the accumulator holds the exact value. -/
theorem int_loop_shape (D S : List Nat) (ni : NumInfo) (zc : Nat)
    (hd : ∀ d ∈ D, d < 10) (hS : isDigit (rget S).1 = false) :
    ∃ ni2 zc2,
      int_loop ni zc (rget (digitChars D ++ S)).1 (rget (digitChars D ++ S)).2 =
        (ni2, zc2, (rget S).1, (rget S).2) ∧
      core_same ni2 ni ∧ ni2.num = ni.num ∧ ni2.div = ni.div ∧
      ni2.dec_cnt = ni.dec_cnt + D.length ∧
      (ni.big ≠ 0 → ni2.big ≠ 0) ∧
      (ni2.big = 0 → zc2 = tzrun zc D ∧ ni.big = 0 ∧
        (D ≠ [] → ni2.dec_cnt - zc2 ≤ DEC_MAX)) ∧
      (∀ a : Nat, ni.big = 0 → ni.i = (a : Int) → digitsValFrom a D < LONG_MAX →
        zc ≤ ni.dec_cnt → ni.dec_cnt + D.length - tzrun zc D ≤ DEC_MAX →
        ni2.big = 0 ∧ ni2.i = (digitsValFrom a D : Int) ∧ zc2 = tzrun zc D) := by
  induction D generalizing ni zc with
  | nil =>
    refine ⟨ni, zc, ?_, core_same_refl ni, rfl, rfl, by simp, fun h => h, ?_, ?_⟩
    · simpa using int_loop_stop ni zc S hS
    · intro h
      exact ⟨rfl, h, fun hD => absurd rfl hD⟩
    · intro a h hia _ _ _
      exact ⟨h, by simpa [digitsValFrom] using hia, rfl⟩
  | cons d D ih =>
    have hd0 : d < 10 := hd d (List.mem_cons_self d D)
    have hc : isDigit (d + 48) = true := isDigit_add48 d hd0
    have hsplit : rget (digitChars (d :: D) ++ S) = (d + 48, digitChars D ++ S) := rfl
    rw [hsplit]
    rw [int_loop_step ni zc (d + 48) (digitChars D ++ S) hc]
    have hd48 : d + 48 - 48 = d := by omega
    by_cases hb : ni.big = 0
    · set zc1 := if d = 0 then zc + 1 else 0 with hzc1
      by_cases hchk : (LONG_MAX : Int) ≤ s64 (ni.i * 10 + (d : Int)) ∨
          DEC_MAX < ni.dec_cnt + 1 - zc1
      · have hstep : int_step ni zc (d + 48) =
            ({ ni with dec_cnt := ni.dec_cnt + 1,
                       i := s64 (ni.i * 10 + (d : Int)), big := 1 }, zc1) := by
          simp [int_step, hb, hd48, hzc1, hchk]
        obtain ⟨ni2, zc2, heq, hcore, hnum, hdiv, hdec, hmono, hinv, hfwd⟩ :=
          ih ({ ni with dec_cnt := ni.dec_cnt + 1,
                        i := s64 (ni.i * 10 + (d : Int)), big := 1 }) zc1
            (fun x hx => hd x (List.mem_cons_of_mem d hx))
        refine ⟨ni2, zc2, ?_, hcore, hnum, hdiv,
               by simp only [List.length_cons]; simp at hdec; omega, fun _ => ?_, ?_, ?_⟩
        · rw [hstep]
          exact heq
        · exact hmono (by simp)
        · intro h0
          exact absurd (hmono (by simp)) (by simp [h0])
        · intro a _ hia hval hzc hsig
          exfalso
          have hle : a * 10 + d ≤ digitsValFrom a (d :: D) := by
            rw [digitsValFrom_cons]
            exact digitsValFrom_le _ D
          rcases hchk with hchk | hchk
          · have hval2 : digitsValFrom a (d :: D) < 9223372036854775807 := hval
            have hsmall : ((a * 10 + d : Nat) : Int) < 9223372036854775808 := by
              exact_mod_cast (by omega : a * 10 + d < 9223372036854775808)
            rw [hia] at hchk
            rw [show ((a : Int) * 10 + (d : Int)) = ((a * 10 + d : Nat) : Int) from by
                push_cast; ring] at hchk
            rw [s64_of_small _ (Int.natCast_nonneg _) hsmall] at hchk
            have hchk2 : ((9223372036854775807 : Nat) : Int) ≤ ((a * 10 + d : Nat) : Int) :=
              hchk
            omega
          · have hzc2 : zc1 ≤ ni.dec_cnt + 1 := by rw [hzc1]; split <;> omega
            have hsg := sig_le D (ni.dec_cnt + 1) zc1 hzc2
            rw [tzrun_cons] at hsig
            simp only [← hzc1] at hsig
            simp only [List.length_cons] at hsig
            omega
      · have hstep : int_step ni zc (d + 48) =
            ({ ni with dec_cnt := ni.dec_cnt + 1,
                       i := s64 (ni.i * 10 + (d : Int)) }, zc1) := by
          simp [int_step, hb, hd48, hzc1, hchk]
        obtain ⟨ni2, zc2, heq, hcore, hnum, hdiv, hdec, hmono, hinv, hfwd⟩ :=
          ih ({ ni with dec_cnt := ni.dec_cnt + 1,
                        i := s64 (ni.i * 10 + (d : Int)) }) zc1
            (fun x hx => hd x (List.mem_cons_of_mem d hx))
        refine ⟨ni2, zc2, ?_, hcore, hnum, hdiv,
               by simp only [List.length_cons]; simp at hdec; omega,
               fun h => absurd hb h, ?_, ?_⟩
        · rw [hstep]
          exact heq
        · intro h0
          obtain ⟨hz, _, hlast⟩ := hinv h0
          refine ⟨by rw [hz, tzrun_cons, hzc1], hb, fun _ => ?_⟩
          rcases List.eq_nil_or_concat D with hD | hD
          · subst hD
            simp only [tzrun_nil] at hz
            push_neg at hchk
            simp only [List.length_nil, Nat.add_zero] at hdec
            rw [hdec, hz]
            simp
            omega
          · exact hlast (by rcases hD with ⟨_, _, h⟩; subst h; simp)
        · intro a hb0 hia hval hzc hsig
          have hle : a * 10 + d ≤ digitsValFrom a (d :: D) := by
            rw [digitsValFrom_cons]
            exact digitsValFrom_le _ D
          have hval2 : digitsValFrom a (d :: D) < 9223372036854775807 := hval
          have hsmall : ((a * 10 + d : Nat) : Int) < 9223372036854775808 := by
            exact_mod_cast (by omega : a * 10 + d < 9223372036854775808)
          obtain ⟨hbig2, hival, hz2⟩ := hfwd (a * 10 + d) (by simpa using hb0)
            (by show s64 (ni.i * 10 + (d : Int)) = ((a * 10 + d : Nat) : Int)
                rw [hia]
                rw [show ((a : Int) * 10 + (d : Int)) = ((a * 10 + d : Nat) : Int) from by
                    push_cast; ring]
                exact s64_of_small _ (Int.natCast_nonneg _) hsmall)
            (by rw [← digitsValFrom_cons]; exact hval)
            (by simp; rw [hzc1]; split <;> omega)
            (by rw [tzrun_cons, ← hzc1] at hsig
                simp only [List.length_cons] at hsig
                simp
                omega)
          exact ⟨hbig2, by rw [hival, digitsValFrom_cons],
                 by rw [hz2, tzrun_cons, hzc1]⟩
    · have hstep : int_step ni zc (d + 48) =
          ({ ni with dec_cnt := ni.dec_cnt + 1, big := ni.big + 1 }, zc) := by
        simp [int_step, hb]
      obtain ⟨ni2, zc2, heq, hcore, hnum, hdiv, hdec, hmono, hinv, hfwd⟩ :=
        ih ({ ni with dec_cnt := ni.dec_cnt + 1, big := ni.big + 1 }) zc
          (fun x hx => hd x (List.mem_cons_of_mem d hx))
      refine ⟨ni2, zc2, ?_, hcore, hnum, hdiv,
             by simp only [List.length_cons]; simp at hdec; omega, fun _ => ?_, ?_, ?_⟩
      · rw [hstep]
        exact heq
      · exact hmono (by simp)
      · intro h0
        exact absurd (hmono (by simp)) (by simp [h0])
      · intro a h
        exact absurd h hb

/-- Full characterization of the fractional digit loop of `read_num`: the
digit count and trailing-zero run advance unconditionally and `big` is
never cleared; when `big` ends up clear it was clear before and the final
threshold check passed; and when the ideal numerator and denominator stay
below `LONG_MAX` (so the wrapping `s64` arithmetic never wraps) and the
significant digits stay within budget, `big` stays clear and the fields
hold the exact values. -/
theorem frac_loop_shape (D S : List Nat) (ni : NumInfo) (zc : Nat)
    (hd : ∀ d ∈ D, d < 10) (hS : isDigit (rget S).1 = false) :
    ∃ ni2 zc2,
      frac_loop ni zc (rget (digitChars D ++ S)).1 (rget (digitChars D ++ S)).2 =
        (ni2, zc2, (rget S).1, (rget S).2) ∧
      core_same ni2 ni ∧ ni2.i = ni.i ∧
      ni2.dec_cnt = ni.dec_cnt + D.length ∧ zc2 = tzrun zc D ∧
      (ni.big ≠ 0 → ni2.big ≠ 0) ∧
      (ni2.big = 0 → ni.big = 0 ∧ (D ≠ [] → ni2.dec_cnt - zc2 ≤ DEC_MAX)) ∧
      (∀ b dv : Nat, ni.big = 0 → ni.num = (b : Int) → ni.div = (dv : Int) →
        digitsValFrom b D < LONG_MAX → dv * 10 ^ D.length < LONG_MAX →
        zc ≤ ni.dec_cnt → ni.dec_cnt + D.length - tzrun zc D ≤ DEC_MAX →
        ni2.big = 0 ∧ ni2.num = (digitsValFrom b D : Int) ∧
        ni2.div = ((dv * 10 ^ D.length : Nat) : Int)) := by
  induction D generalizing ni zc with
  | nil =>
    refine ⟨ni, zc, ?_, core_same_refl ni, rfl, by simp, by simp, fun h => h, ?_, ?_⟩
    · simpa using frac_loop_stop ni zc S hS
    · intro h
      exact ⟨h, fun hD => absurd rfl hD⟩
    · intro b dv h hnum hdiv _ _ _ _
      exact ⟨h, by simpa [digitsValFrom] using hnum, by simpa using hdiv⟩
  | cons d D ih =>
    have hd0 : d < 10 := hd d (List.mem_cons_self d D)
    have hc : isDigit (d + 48) = true := isDigit_add48 d hd0
    have hsplit : rget (digitChars (d :: D) ++ S) = (d + 48, digitChars D ++ S) := rfl
    rw [hsplit]
    rw [frac_loop_step ni zc (d + 48) (digitChars D ++ S) hc]
    have hd48 : d + 48 - 48 = d := by omega
    set zc1 := if d = 0 then zc + 1 else 0 with hzc1
    by_cases hchk : (LONG_MAX : Int) ≤ s64 (ni.div * 10) ∨
        DEC_MAX < ni.dec_cnt + 1 - zc1
    · have hstep : frac_step ni zc (d + 48) =
          ({ ni with dec_cnt := ni.dec_cnt + 1, num := s64 (ni.num * 10 + (d : Int)),
                     div := s64 (ni.div * 10), big := 1 }, zc1) := by
        simp [frac_step, hd48, hzc1, hchk]
      obtain ⟨ni2, zc2, heq, hcore, hi, hdec, hz, hmono, hinv, hfwd⟩ :=
        ih ({ ni with dec_cnt := ni.dec_cnt + 1, num := s64 (ni.num * 10 + (d : Int)),
                      div := s64 (ni.div * 10), big := 1 }) zc1
          (fun x hx => hd x (List.mem_cons_of_mem d hx))
      refine ⟨ni2, zc2, ?_, hcore, hi,
             by simp only [List.length_cons]; simp at hdec; omega,
             by rw [hz, tzrun_cons, hzc1], fun _ => hmono (by simp), ?_, ?_⟩
      · rw [hstep]
        exact heq
      · intro h0
        exact absurd (hmono (by simp)) (by simp [h0])
      · intro b dv _ hnum0 hdiv0 hbv hdvv hzc hsig
        exfalso
        rcases hchk with hchk | hchk
        · have hd10 : dv * 10 ≤ dv * 10 ^ (d :: D).length := by
            rw [List.length_cons]
            exact Nat.mul_le_mul_left _ (by
              calc 10 = 10 ^ 1 := (pow_one 10).symm
              _ ≤ 10 ^ (D.length + 1) := Nat.pow_le_pow_right (by norm_num) (by omega))
          have hdvv2 : dv * 10 ^ (d :: D).length < 9223372036854775807 := hdvv
          have hsmall : ((dv * 10 : Nat) : Int) < 9223372036854775808 := by
            exact_mod_cast (by omega : dv * 10 < 9223372036854775808)
          rw [hdiv0] at hchk
          rw [show ((dv : Int) * 10) = ((dv * 10 : Nat) : Int) from by push_cast; ring]
              at hchk
          rw [s64_of_small _ (Int.natCast_nonneg _) hsmall] at hchk
          have hchk2 : ((9223372036854775807 : Nat) : Int) ≤ ((dv * 10 : Nat) : Int) :=
            hchk
          omega
        · have hzc2 : zc1 ≤ ni.dec_cnt + 1 := by rw [hzc1]; split <;> omega
          have hsg := sig_le D (ni.dec_cnt + 1) zc1 hzc2
          rw [tzrun_cons] at hsig
          simp only [← hzc1] at hsig
          simp only [List.length_cons] at hsig
          omega
    · have hstep : frac_step ni zc (d + 48) =
          ({ ni with dec_cnt := ni.dec_cnt + 1, num := s64 (ni.num * 10 + (d : Int)),
                     div := s64 (ni.div * 10) }, zc1) := by
        simp [frac_step, hd48, hzc1, hchk]
      obtain ⟨ni2, zc2, heq, hcore, hi, hdec, hz, hmono, hinv, hfwd⟩ :=
        ih ({ ni with dec_cnt := ni.dec_cnt + 1, num := s64 (ni.num * 10 + (d : Int)),
                      div := s64 (ni.div * 10) }) zc1
          (fun x hx => hd x (List.mem_cons_of_mem d hx))
      refine ⟨ni2, zc2, ?_, hcore, hi,
             by simp only [List.length_cons]; simp at hdec; omega,
             by rw [hz, tzrun_cons, hzc1], fun h => hmono (by simpa using h), ?_, ?_⟩
      · rw [hstep]
        exact heq
      · intro h0
        obtain ⟨hb, hlast⟩ := hinv h0
        simp at hb
        refine ⟨hb, fun _ => ?_⟩
        rcases List.eq_nil_or_concat D with hD | hD
        · subst hD
          push_neg at hchk
          simp only [List.length_nil, Nat.add_zero] at hdec
          simp only [tzrun_nil] at hz
          rw [hdec, hz]
          simp
          omega
        · exact hlast (by rcases hD with ⟨_, _, h⟩; subst h; simp)
      · intro b dv hb0 hnum0 hdiv0 hbv hdvv hzc hsig
        have hpow : dv * 10 * 10 ^ D.length = dv * 10 ^ (d :: D).length := by
          rw [List.length_cons, pow_succ]
          ring
        have hble : b * 10 + d ≤ digitsValFrom b (d :: D) := by
          rw [digitsValFrom_cons]
          exact digitsValFrom_le _ D
        have hbv2 : digitsValFrom b (d :: D) < 9223372036854775807 := hbv
        have hd10 : dv * 10 ≤ dv * 10 ^ (d :: D).length := by
          rw [List.length_cons]
          exact Nat.mul_le_mul_left _ (by
            calc 10 = 10 ^ 1 := (pow_one 10).symm
            _ ≤ 10 ^ (D.length + 1) := Nat.pow_le_pow_right (by norm_num) (by omega))
        have hdvv2 : dv * 10 ^ (d :: D).length < 9223372036854775807 := hdvv
        have hsmb : ((b * 10 + d : Nat) : Int) < 9223372036854775808 := by
          exact_mod_cast (by omega : b * 10 + d < 9223372036854775808)
        have hsmd : ((dv * 10 : Nat) : Int) < 9223372036854775808 := by
          exact_mod_cast (by omega : dv * 10 < 9223372036854775808)
        obtain ⟨hbig2, hnval, hdval⟩ := hfwd (b * 10 + d) (dv * 10) (by simpa using hb0)
          (by show s64 (ni.num * 10 + (d : Int)) = ((b * 10 + d : Nat) : Int)
              rw [hnum0]
              rw [show ((b : Int) * 10 + (d : Int)) = ((b * 10 + d : Nat) : Int) from by
                  push_cast; ring]
              exact s64_of_small _ (Int.natCast_nonneg _) hsmb)
          (by show s64 (ni.div * 10) = ((dv * 10 : Nat) : Int)
              rw [hdiv0]
              rw [show ((dv : Int) * 10) = ((dv * 10 : Nat) : Int) from by push_cast; ring]
              exact s64_of_small _ (Int.natCast_nonneg _) hsmd)
          (by rw [← digitsValFrom_cons]; exact hbv)
          (by rw [hpow]; exact hdvv)
          (by simp; rw [hzc1]; split <;> omega)
          (by rw [tzrun_cons, ← hzc1] at hsig
              simp only [List.length_cons] at hsig
              simp
              omega)
        refine ⟨hbig2, by rw [hnval, digitsValFrom_cons], ?_⟩
        rw [hdval, hpow]

/-- Full characterization of the exponent digit loop of `read_num`: the
accumulated exponent is the digit value; the info record is untouched except
for `big`, which is never cleared, is clear afterwards only if it was clear
before and the final range check passed (so a non-empty exponent run leaves
`big` clear only when its value is below `EXP_MAX`), and stays clear when
the accumulated exponent is below `EXP_MAX`. -/
theorem exp_loop_shape (D S : List Nat) (ni : NumInfo) (e : Nat)
    (hd : ∀ d ∈ D, d < 10) (hS : isDigit (rget S).1 = false) :
    ∃ ni2,
      exp_loop ni e (rget (digitChars D ++ S)).1 (rget (digitChars D ++ S)).2 =
        (ni2, digitsValFrom e D, (rget S).1, (rget S).2) ∧
      core_same ni2 ni ∧ ni2.i = ni.i ∧ ni2.num = ni.num ∧ ni2.div = ni.div ∧
      ni2.dec_cnt = ni.dec_cnt ∧
      (ni.big ≠ 0 → ni2.big ≠ 0) ∧
      (ni2.big = 0 → ni.big = 0) ∧
      (ni.big = 0 → digitsValFrom e D < EXP_MAX → ni2.big = 0) ∧
      (ni2.big = 0 → D ≠ [] → digitsValFrom e D < EXP_MAX) := by
  induction D generalizing ni e with
  | nil =>
    refine ⟨ni, ?_, core_same_refl ni, rfl, rfl, rfl, rfl, fun h => h, fun h => h,
           fun h _ => h, fun _ hD => absurd rfl hD⟩
    simpa using exp_loop_stop ni e S hS
  | cons d D ih =>
    have hd0 : d < 10 := hd d (List.mem_cons_self d D)
    have hc : isDigit (d + 48) = true := isDigit_add48 d hd0
    have hsplit : rget (digitChars (d :: D) ++ S) = (d + 48, digitChars D ++ S) := rfl
    rw [hsplit]
    rw [exp_loop_step ni e (d + 48) (digitChars D ++ S) hc]
    have hd48 : d + 48 - 48 = d := by omega
    by_cases hchk : EXP_MAX ≤ e * 10 + d
    · have hstep : exp_step ni e (d + 48) = ({ ni with big := 1 }, e * 10 + d) := by
        simp [exp_step, hd48, hchk]
      obtain ⟨ni2, heq, hcore, hi, hnum, hdiv, hdec, hmono, hinv, hfwd, hlast⟩ :=
        ih ({ ni with big := 1 }) (e * 10 + d)
          (fun x hx => hd x (List.mem_cons_of_mem d hx))
      refine ⟨ni2, ?_, hcore, hi, hnum, hdiv, hdec, fun _ => hmono (by simp), ?_, ?_, ?_⟩
      · rw [hstep]
        exact heq
      · intro h0
        exact absurd (hmono (by simp)) (by simp [h0])
      · intro _ hexp
        exfalso
        have hle : e * 10 + d ≤ digitsValFrom (e * 10 + d) D := digitsValFrom_le _ D
        rw [digitsValFrom_cons] at hexp
        omega
      · intro h0
        exact absurd (hmono (by simp)) (by simp [h0])
    · have hstep : exp_step ni e (d + 48) = (ni, e * 10 + d) := by
        simp [exp_step, hd48, hchk]
      obtain ⟨ni2, heq, hcore, hi, hnum, hdiv, hdec, hmono, hinv, hfwd, hlast⟩ :=
        ih ni (e * 10 + d) (fun x hx => hd x (List.mem_cons_of_mem d hx))
      refine ⟨ni2, ?_, hcore, hi, hnum, hdiv, hdec, hmono, hinv, fun hb hexp =>
        hfwd hb (by rw [digitsValFrom_cons] at hexp; exact hexp), ?_⟩
      · rw [hstep]
        exact heq
      · intro h0 _
        rcases List.eq_nil_or_concat D with hD | hD
        · subst hD
          simp only [digitsValFrom_cons, digitsValFrom_nil]
          omega
        · have := hlast h0 (by rcases hD with ⟨_, _, h⟩; subst h; simp)
          rw [digitsValFrom_cons]
          exact this

/-- The exponent stage of `read_num` over the characters of an optional
exponent part: consumes the marker, the optional sign and the digits, sets
`exp` to the signed digit value (leaving an entry value 0 untouched when no
exponent part is present), touches no other field but `big`, never clears
`big`, and leaves `big` clear when it was clear and the exponent value is
below `EXP_MAX`; the character terminating the stage is consumed. -/
theorem num_exp_part_run (ni : NumInfo) (ec : Nat) (E : Option (Option Bool × List Nat))
    (after : List Nat)
    (hdE : ∀ d ∈ expDigits E, d < 10)
    (hec : ec = 101 ∨ ec = 69)
    (hE2 : ∀ es E2, E = some (es, E2) → E2 ≠ [])
    (ht : isDigit (rget after).1 = false)
    (hte : E = none → (rget after).1 ≠ 101 ∧ (rget after).1 ≠ 69)
    (hexp0 : ni.exp = 0) :
    ∃ ni3,
      num_exp_part ni (rget (expChars ec E ++ after)).1 (rget (expChars ec E ++ after)).2 =
        (ni3, (rget after).2) ∧
      ni3.str = ni.str ∧ ni3.i = ni.i ∧ ni3.num = ni.num ∧ ni3.div = ni.div ∧
      ni3.dec_cnt = ni.dec_cnt ∧ ni3.len = ni.len ∧ ni3.neg = ni.neg ∧
      ni3.nan = ni.nan ∧ ni3.infinity = ni.infinity ∧ ni3.no_big = ni.no_big ∧
      ni3.exp = (if expNeg E then -(digitsVal (expDigits E) : Int)
                 else (digitsVal (expDigits E) : Int)) ∧
      (ni.big ≠ 0 → ni3.big ≠ 0) ∧ (ni3.big = 0 → ni.big = 0) ∧
      (ni.big = 0 → digitsVal (expDigits E) < EXP_MAX → ni3.big = 0) := by
  match E with
  | none =>
    refine ⟨ni, ?_, rfl, rfl, rfl, rfl, rfl, rfl, rfl, rfl, rfl, rfl, ?_, fun h => h,
           fun h => h, fun h _ => h⟩
    · have h1 : (rget after).1 ≠ 101 ∧ (rget after).1 ≠ 69 := hte rfl
      simp only [expChars, List.nil_append]
      unfold num_exp_part
      rw [if_neg (by push_neg; exact h1)]
    · simp [expNeg, expDigits, hexp0, digitsVal]
  | some (es, E2) =>
    have hE2x : E2 ≠ [] := hE2 es E2 rfl
    have hcm : (rget (expChars ec (some (es, E2)) ++ after)).1 = ec ∧
        (rget (expChars ec (some (es, E2)) ++ after)).2 =
          signChars es ++ digitChars E2 ++ after := by
      simp [expChars, List.cons_append, List.append_assoc]
    obtain ⟨ni2, heq, hcore, hi, hnum, hdiv, hdec, hmono, hinv, hfwd, hlast⟩ :=
      exp_loop_shape E2 after ni 0 (by simpa [expDigits] using hdE) ht
    obtain ⟨c1, c2, c3, c4, c5, c6, c7⟩ := hcore
    match es with
    | none =>
      have hhead : ∃ d D2, E2 = d :: D2 ∧ d < 10 := by
        match E2, hE2x with
        | d :: D2, _ => exact ⟨d, D2, rfl, by
            have := hdE d
            simp [expDigits] at this
            exact this⟩
      obtain ⟨d, D2, hE2eq, hd10⟩ := hhead
      refine ⟨{ ni2 with exp := (digitsVal E2 : Int) }, ?_, c1, hi, hnum, hdiv, hdec, c3,
             c4, c5, c6, c7, by simp [expNeg, expDigits], fun h => hmono h,
             fun h => hinv h, fun h1 h2 => hfwd h1 (by simpa [expDigits] using h2)⟩
      rw [hcm.1, hcm.2]
      have hs : signChars none ++ digitChars E2 ++ after = digitChars E2 ++ after := by
        simp [signChars]
      rw [hs]
      have hp1 : (rget (digitChars E2 ++ after)).1 = d + 48 := by
        rw [hE2eq]; simp
      have hne45 : (rget (digitChars E2 ++ after)).1 ≠ 45 := by rw [hp1]; omega
      have hne43 : (rget (digitChars E2 ++ after)).1 ≠ 43 := by rw [hp1]; omega
      unfold num_exp_part
      rw [if_pos hec]
      simp only [if_neg hne45, if_neg hne43]
      rw [heq]
      simp [digitsVal]
    | some true =>
      refine ⟨{ ni2 with exp := -(digitsVal E2 : Int) }, ?_, c1, hi, hnum, hdiv, hdec, c3,
             c4, c5, c6, c7, by simp [expNeg, expDigits], fun h => hmono h,
             fun h => hinv h, fun h1 h2 => hfwd h1 (by simpa [expDigits] using h2)⟩
      rw [hcm.1, hcm.2]
      have hs : signChars (some true) ++ digitChars E2 ++ after =
          45 :: (digitChars E2 ++ after) := by
        simp [signChars]
      rw [hs]
      unfold num_exp_part
      rw [if_pos hec]
      simp only [rget_cons]
      norm_num
      rw [heq]
      simp [digitsVal]
    | some false =>
      refine ⟨{ ni2 with exp := (digitsVal E2 : Int) }, ?_, c1, hi, hnum, hdiv, hdec, c3,
             c4, c5, c6, c7, by simp [expNeg, expDigits], fun h => hmono h,
             fun h => hinv h, fun h1 h2 => hfwd h1 (by simpa [expDigits] using h2)⟩
      rw [hcm.1, hcm.2]
      have hs : signChars (some false) ++ digitChars E2 ++ after =
          43 :: (digitChars E2 ++ after) := by
        simp [signChars]
      rw [hs]
      unfold num_exp_part
      rw [if_pos hec]
      simp only [rget_cons]
      norm_num
      rw [heq]
      simp [digitsVal]


/-- A digit-list accumulator value is bounded: continuing from `a`, the
value stays below `(a + 1) * 10 ^ length`. -/
theorem digitsValFrom_lt (a : Nat) (D : List Nat) (hd : ∀ d ∈ D, d < 10) :
    digitsValFrom a D < (a + 1) * 10 ^ D.length := by
  induction D generalizing a with
  | nil => simp [digitsValFrom]
  | cons d D ih =>
    have hd0 : d < 10 := hd d (List.mem_cons_self d D)
    have h1 : digitsValFrom (a * 10 + d) D < (a * 10 + d + 1) * 10 ^ D.length :=
      ih (a * 10 + d) (fun x hx => hd x (List.mem_cons_of_mem d hx))
    have h2 : (a * 10 + d + 1) * 10 ^ D.length ≤ (a + 1) * 10 ^ (d :: D).length := by
      rw [List.length_cons, pow_succ]
      have : a * 10 + d + 1 ≤ (a + 1) * 10 := by omega
      calc (a * 10 + d + 1) * 10 ^ D.length ≤ (a + 1) * 10 * 10 ^ D.length :=
            Nat.mul_le_mul_right _ this
        _ = (a + 1) * (10 ^ D.length * 10) := by ring
    rw [digitsValFrom_cons]
    omega

/-- The decimal path of `read_num` on the text of a well-formed literal
followed by a non-digit terminator: from a fresh `NumInfo` (zero
accumulators, `div = 1`, clear `big`), the three digit stages consume the
integer digits, the optional fraction and the optional exponent plus the one
character terminating the literal, record the span length and the signed
exponent; with all ideal accumulator values in range (so the wrapping
64-bit arithmetic never wraps) and the significant digits within budget,
`big` stays clear and the fields hold the exact digit values, while a
significant-digit count above `DEC_MAX` forces `big` nonzero. -/
theorem num_decimal_run (I : List Nat) (F : Option (List Nat)) (ec : Nat)
    (E : Option (Option Bool × List Nat)) (after : List Nat) (ni : NumInfo)
    (hI : I ≠ [])
    (hdI : ∀ d ∈ I, d < 10) (hdF : ∀ d ∈ F.getD [], d < 10)
    (hdE : ∀ d ∈ expDigits E, d < 10)
    (hec : ec = 101 ∨ ec = 69)
    (hE2 : ∀ es E2, E = some (es, E2) → E2 ≠ [])
    (ht : isDigit (rget after).1 = false)
    (htdot : F = none → (rget after).1 ≠ 46)
    (hte : E = none → (rget after).1 ≠ 101 ∧ (rget after).1 ≠ 69)
    (hbig : ni.big = 0) (hnum : ni.num = 0) (hdiv : ni.div = 1)
    (hdec : ni.dec_cnt = 0) (hi0 : ni.i = 0) (hexp0 : ni.exp = 0) :
    ∃ ni4,
      num_decimal ni (rget (digitChars I ++ (fracChars F ++ (expChars ec E ++ after)))).1
          (rget (digitChars I ++ (fracChars F ++ (expChars ec E ++ after)))).2 =
        (ni4, (rget after).2) ∧
      ni4.str = ni.str ∧ ni4.neg = ni.neg ∧ ni4.nan = ni.nan ∧
      ni4.infinity = ni.infinity ∧ ni4.no_big = ni.no_big ∧
      ni4.exp = (if expNeg E then -(digitsVal (expDigits E) : Int)
                 else (digitsVal (expDigits E) : Int)) ∧
      ni4.len = ni.str.length - (rget after).2.length ∧
      (digitsVal I < LONG_MAX → 10 ^ (F.getD []).length < LONG_MAX →
        digitsVal (expDigits E) < EXP_MAX →
        I.length + (F.getD []).length - tzrun 0 (I ++ F.getD []) ≤ DEC_MAX →
        ni4.big = 0 ∧ ni4.i = (digitsVal I : Int) ∧
        ni4.num = (digitsVal (F.getD []) : Int) ∧
        ni4.div = ((10 ^ (F.getD []).length : Nat) : Int) ∧
        ni4.dec_cnt = I.length + (F.getD []).length - tzrun 0 (I ++ F.getD [])) ∧
      (DEC_MAX < I.length + (F.getD []).length - tzrun 0 (I ++ F.getD []) →
        ni4.big ≠ 0) := by
  have hS2 : isDigit (rget (expChars ec E ++ after)).1 = false := by
    match E with
    | none => simpa [expChars] using ht
    | some (es, E2) =>
      rcases hec with h | h <;> subst h <;> simp [expChars] <;> decide
  have hS1 : isDigit (rget (fracChars F ++ (expChars ec E ++ after))).1 = false := by
    match F with
    | none => simpa [fracChars] using hS2
    | some F2 => simp [fracChars]; decide
  obtain ⟨ni1, zc1, heq1, hco1, hn1, hd1, hdc1, hmono1, hinv1, hfwd1⟩ :=
    int_loop_shape I (fracChars F ++ (expChars ec E ++ after)) ni 0 hdI hS1
  obtain ⟨p1, p2, p3, p4, p5, p6, p7⟩ := hco1
  -- the fraction stage, by cases on its presence
  have hfr : ∃ ni2 zc2,
      num_frac_part ni1 zc1 (rget (fracChars F ++ (expChars ec E ++ after))).1
          (rget (fracChars F ++ (expChars ec E ++ after))).2 =
        (ni2, zc2, (rget (expChars ec E ++ after)).1, (rget (expChars ec E ++ after)).2) ∧
      ni2.str = ni1.str ∧ ni2.exp = ni1.exp ∧ ni2.len = ni1.len ∧ ni2.neg = ni1.neg ∧
      ni2.nan = ni1.nan ∧ ni2.infinity = ni1.infinity ∧ ni2.no_big = ni1.no_big ∧
      ni2.i = ni1.i ∧
      ni2.dec_cnt = ni1.dec_cnt + (F.getD []).length ∧ zc2 = tzrun zc1 (F.getD []) ∧
      (ni1.big ≠ 0 → ni2.big ≠ 0) ∧
      (ni2.big = 0 → ni1.big = 0 ∧
        (F.getD [] ≠ [] → ni2.dec_cnt - zc2 ≤ DEC_MAX)) ∧
      (∀ b dv : Nat, ni1.big = 0 → ni1.num = (b : Int) → ni1.div = (dv : Int) →
        digitsValFrom b (F.getD []) < LONG_MAX →
        dv * 10 ^ (F.getD []).length < LONG_MAX →
        zc1 ≤ ni1.dec_cnt →
        ni1.dec_cnt + (F.getD []).length - tzrun zc1 (F.getD []) ≤ DEC_MAX →
        ni2.big = 0 ∧ ni2.num = (digitsValFrom b (F.getD []) : Int) ∧
        ni2.div = ((dv * 10 ^ (F.getD []).length : Nat) : Int)) := by
    match F with
    | none =>
      refine ⟨ni1, zc1, ?_, rfl, rfl, rfl, rfl, rfl, rfl, rfl, rfl, by simp, by simp,
             fun h => h, ?_, ?_⟩
      · have hc46 : (rget (fracChars none ++ (expChars ec E ++ after))).1 ≠ 46 := by
          match E with
          | none => simpa [fracChars, expChars] using htdot rfl
          | some (es, E2) =>
            rcases hec with h | h <;> subst h <;> simp [fracChars, expChars]
        unfold num_frac_part
        rw [if_neg hc46]
        simp [fracChars]
      · intro h
        exact ⟨h, fun hx => absurd rfl hx⟩
      · intro b dv h hb hd _ _ _ _
        exact ⟨h, by simpa [digitsValFrom] using hb, by simpa using hd⟩
    | some F2 =>
      obtain ⟨ni2, zc2, heq2, hco2, hi2, hdec2, hz2, hmono2, hinv2, hfwd2⟩ :=
        frac_loop_shape F2 (expChars ec E ++ after) ni1 zc1 (by simpa using hdF) hS2
      obtain ⟨q1, q2, q3, q4, q5, q6, q7⟩ := hco2
      refine ⟨ni2, zc2, ?_, q1, q2, q3, q4, q5, q6, q7, hi2,
             by simpa using hdec2, by simpa using hz2,
             hmono2, by simpa using hinv2, by simpa using hfwd2⟩
      have hsplit : fracChars (some F2) ++ (expChars ec E ++ after) =
          46 :: (digitChars F2 ++ (expChars ec E ++ after)) := by
        simp [fracChars]
      rw [hsplit]
      unfold num_frac_part
      rw [rget_cons, if_pos rfl]
      simpa using heq2
  obtain ⟨ni2, zc2, heq2, r1, r2, r3, r4, r5, r6, r7, r8, r9, r10, hmono2,
         hinv2, hfwd2⟩ := hfr
  obtain ⟨ni3, heq3, s1, s2, s3, s4, s5, s6, s7, s8, s9, s10, s11, hmono3, hinv3, hfwd3⟩ :=
    num_exp_part_run ni2 ec E after hdE hec hE2 ht hte (by rw [r2, p2, hexp0])
  refine ⟨{ ni3 with dec_cnt := ni3.dec_cnt - zc2, len := ni3.str.length -
            ((rget after).2).length }, ?_, ?_, ?_, ?_, ?_, ?_, ?_, ?_, ?_, ?_⟩
  · unfold num_decimal
    simp only [heq1, heq2, heq3]
  · rw [s1, r1, p1]
  · rw [s7, r4, p4]
  · rw [s8, r5, p5]
  · rw [s9, r6, p6]
  · rw [s10, r7, p7]
  · exact s11
  · show ni3.str.length - ((rget after).2).length = ni.str.length - ((rget after).2).length
    rw [s1, r1, p1]
  · intro a1 a2 a3 a4
    have hzc1le : tzrun 0 I ≤ I.length := by
      have := tzrun_le_add 0 0 I (by omega)
      omega
    have hsig1 : I.length - tzrun 0 I ≤ DEC_MAX := by
      have hmon := sig_le (F.getD []) I.length (tzrun 0 I) hzc1le
      rw [← tzrun_append] at hmon
      omega
    obtain ⟨hb1, hv1, hz1⟩ := hfwd1 0 hbig (by rw [hi0]; simp) a1 (by omega)
      (by rw [hdec]; simpa using hsig1)
    have hvF : digitsValFrom 0 (F.getD []) < LONG_MAX := by
      have h1 := digitsValFrom_lt 0 (F.getD []) hdF
      have h2 : (10 : Nat) ^ (F.getD []).length < LONG_MAX := a2
      simp at h1
      omega
    obtain ⟨hb2, hnum2v, hdiv2v⟩ := hfwd2 0 1 hb1
      (by rw [hn1, hnum]; simp) (by rw [hd1, hdiv]; simp) hvF (by simpa using a2)
      (by rw [hz1, hdc1, hdec]; simpa using hzc1le)
      (by rw [hz1, hdc1, hdec, ← tzrun_append]; simpa using a4)
    have hb3 : ni3.big = 0 := hfwd3 hb2 a3
    refine ⟨by simpa using hb3, ?_, ?_, ?_, ?_⟩
    · show ni3.i = (digitsVal I : Int)
      rw [s2, r8, hv1]
      rfl
    · show ni3.num = (digitsVal (F.getD []) : Int)
      rw [s3, hnum2v]
      rfl
    · show ni3.div = ((10 ^ (F.getD []).length : Nat) : Int)
      rw [s4, hdiv2v]
      norm_num
    · show ni3.dec_cnt - zc2 = I.length + (F.getD []).length - tzrun 0 (I ++ F.getD [])
      rw [s5, r9, hdc1, hdec, r10, hz1, ← tzrun_append]
      simp
  · intro htrig h0
    have hb3 : ni3.big = 0 := by simpa using h0
    have hb2 : ni2.big = 0 := hinv3 hb3
    obtain ⟨hb1, hlast2⟩ := hinv2 hb2
    obtain ⟨hz1, _, hlast1⟩ := hinv1 hb1
    have hsg1 := hlast1 hI
    rcases List.eq_nil_or_concat (F.getD []) with hF | hF
    · rw [hF] at htrig
      simp at htrig
      rw [hdc1, hdec, hz1] at hsg1
      simp at hsg1
      omega
    · have hFne : F.getD [] ≠ [] := by
        rcases hF with ⟨a, b, h⟩
        rw [h]
        simp
      have hsg2 := hlast2 hFne
      rw [r9, hdc1, hdec, r10, hz1, ← tzrun_append] at hsg2
      simp at hsg2
      omega

/-- Exactness of the fixnum path: for a `NumInfo` with clear flags, a unit
denominator and zero exponent whose accumulator holds the integer digits'
value, `oj_num_as_valuex` takes the `LONG2NUM` path — pure integer
arithmetic, no floating point — and the produced integer is exactly the
literal's mathematical value. -/
theorem num_value_fix (ni : NumInfo) (neg : Bool) (I : List Nat)
    (hbig : ni.big = 0) (hinf : ni.infinity = false) (hnan : ni.nan = false)
    (hi : ni.i = (digitsVal I : Int)) (hdiv : ni.div = 1) (hexp : ni.exp = 0)
    (hneg : ni.neg = neg) :
    oj_num_as_valuex ni =
      .fix (if neg then -(digitsVal I : Int) else (digitsVal I : Int)) ∧
    (oj_num_as_valuex ni).toQ = some (mathVal neg I [] false []) := by
  have hv : oj_num_as_valuex ni =
      .fix (if neg then -(digitsVal I : Int) else (digitsVal I : Int)) := by
    unfold oj_num_as_valuex
    rw [hinf, hnan]
    simp [hdiv, hexp, hbig, hi, hneg]
  refine ⟨hv, ?_⟩
  rw [hv]
  unfold RNum.toQ mathVal
  simp [digitsVal, digitsValFrom]

/-- The float path hands `oj_num_as_valuex`'s double computation exactly
the lexed fields. -/
theorem num_value_flt (ni : NumInfo) (hbig : ni.big = 0) (hinf : ni.infinity = false)
    (hnan : ni.nan = false) (hnd : ¬(ni.div = 1 ∧ ni.exp = 0)) :
    oj_num_as_valuex ni = .flt ni.i ni.num ni.div ni.exp ni.neg := by
  unfold oj_num_as_valuex
  rw [hinf, hnan]
  simp [hnd, hbig]
/-- Evaluation of `read_num` when the character after the optional sign is
neither `I` nor `N`/`n`: the decimal path runs and the `BigDec` policy is
applied to its result. -/
theorem read_num_eval_decimal (c0 : Nat) (input : List Nat) (opts : BigdecLoad)
    (s : Nat × List Nat × NumInfo)
    (hs : (if c0 = 45 then
             ((rget input).1, (rget input).2,
              { str := c0 :: input, i := 0, num := 0, div := 1, len := 0, exp := 0,
                dec_cnt := 0, big := 0, infinity := false, nan := false, neg := true,
                no_big := opts = BigdecLoad.FloatDec })
           else if c0 = 43 then
             ((rget input).1, (rget input).2,
              { str := c0 :: input, i := 0, num := 0, div := 1, len := 0, exp := 0,
                dec_cnt := 0, big := 0, infinity := false, nan := false, neg := false,
                no_big := opts = BigdecLoad.FloatDec })
           else
             (c0, input,
              { str := c0 :: input, i := 0, num := 0, div := 1, len := 0, exp := 0,
                dec_cnt := 0, big := 0, infinity := false, nan := false, neg := false,
                no_big := opts = BigdecLoad.FloatDec })) = s)
    (h73 : s.1 ≠ 73) (h78 : ¬(s.1 = 78 ∨ s.1 = 110)) :
    read_num c0 input opts =
      .ok (num_finish (num_decimal s.2.2 s.1 s.2.1).1 opts,
           (num_decimal s.2.2 s.1 s.2.1).2) := by
  simp only [read_num]
  rw [hs, if_neg h73, if_neg h78]

/-- Span length recorded by `read_num`: the whole literal plus the one
terminating character (absent at end-of-input). -/
theorem len_span (lit rest : List Nat) :
    (lit ++ rest).length - (rget rest).2.length = lit.length + min 1 rest.length := by
  cases rest <;> simp [rget] <;> omega

/-- The recorded span is the literal text plus the consumed terminator. -/
theorem take_span (lit rest : List Nat) :
    (lit ++ rest).take ((lit ++ rest).length - (rget rest).2.length) =
      lit ++ rest.take 1 := by
  cases rest with
  | nil => simp [rget]
  | cons a t =>
    have h1 : (lit ++ a :: t).length - (rget (a :: t)).2.length = lit.length + 1 := by
      simp [rget]; omega
    rw [h1, List.take_append_eq_append_take]
    have h2 : lit.take (lit.length + 1) = lit := List.take_of_length_le (by omega)
    have h3 : lit.length + 1 - lit.length = 1 := by omega
    rw [h2, h3]

/-- Component form of `read_num_eval_decimal`. -/
theorem read_num_eval_dec2 (c0 : Nat) (input : List Nat) (opts : BigdecLoad)
    (c1 : Nat) (rest1 : List Nat) (ni1 : NumInfo)
    (hs : (if c0 = 45 then
             ((rget input).1, (rget input).2,
              { str := c0 :: input, i := 0, num := 0, div := 1, len := 0, exp := 0,
                dec_cnt := 0, big := 0, infinity := false, nan := false, neg := true,
                no_big := opts = BigdecLoad.FloatDec })
           else if c0 = 43 then
             ((rget input).1, (rget input).2,
              { str := c0 :: input, i := 0, num := 0, div := 1, len := 0, exp := 0,
                dec_cnt := 0, big := 0, infinity := false, nan := false, neg := false,
                no_big := opts = BigdecLoad.FloatDec })
           else
             (c0, input,
              { str := c0 :: input, i := 0, num := 0, div := 1, len := 0, exp := 0,
                dec_cnt := 0, big := 0, infinity := false, nan := false, neg := false,
                no_big := opts = BigdecLoad.FloatDec })) = (c1, rest1, ni1))
    (h73 : c1 ≠ 73) (h78 : ¬(c1 = 78 ∨ c1 = 110)) :
    read_num c0 input opts =
      .ok (num_finish (num_decimal ni1 c1 rest1).1 opts, (num_decimal ni1 c1 rest1).2) :=
  read_num_eval_decimal c0 input opts (c1, rest1, ni1) hs h73 h78


/-- The decimal stages starting from a fresh post-sign `NumInfo`: raw-span
fields, flag preservation, the threshold trigger for `big`, and — with all
ideal accumulator values in range — exact fields, with the integer-literal
case reconstructing exactly and the float case handing the double
computation exact operands. -/
theorem run_after_sign (I : List Nat) (F : Option (List Nat)) (ec : Nat)
    (E : Option (Option Bool × List Nat)) (after : List Nat)
    (negb nob : Bool) (str0 : List Nat) (hI : I ≠ [])
    (hdI : ∀ d ∈ I, d < 10) (hdF : ∀ d ∈ F.getD [], d < 10)
    (hdE : ∀ d ∈ expDigits E, d < 10) (hec : ec = 101 ∨ ec = 69)
    (hE2 : ∀ es E2, E = some (es, E2) → E2 ≠ [])
    (ht : isDigit (rget after).1 = false)
    (htdot : F = none → (rget after).1 ≠ 46)
    (hte : E = none → (rget after).1 ≠ 101 ∧ (rget after).1 ≠ 69) :
    ∃ ni4,
      num_decimal
          { str := str0, i := 0, num := 0, div := 1, len := 0, exp := 0,
            dec_cnt := 0, big := 0, infinity := false, nan := false, neg := negb,
            no_big := nob }
          (rget (digitChars I ++ (fracChars F ++ (expChars ec E ++ after)))).1
          (rget (digitChars I ++ (fracChars F ++ (expChars ec E ++ after)))).2 =
        (ni4, (rget after).2) ∧
      ni4.str = str0 ∧ ni4.neg = negb ∧ ni4.nan = false ∧ ni4.infinity = false ∧
      ni4.len = str0.length - (rget after).2.length ∧
      (digitsVal I < LONG_MAX → 10 ^ (F.getD []).length < LONG_MAX →
        digitsVal (expDigits E) < EXP_MAX →
        I.length + (F.getD []).length - tzrun 0 (I ++ F.getD []) ≤ DEC_MAX →
        ni4.big = 0 ∧ ni4.i = (digitsVal I : Int) ∧
        ni4.num = (digitsVal (F.getD []) : Int) ∧
        ni4.div = ((10 ^ (F.getD []).length : Nat) : Int) ∧
        ni4.exp = (if expNeg E then -(digitsVal (expDigits E) : Int)
                   else (digitsVal (expDigits E) : Int)) ∧
        ((F.getD []).length = 0 ∧ digitsVal (expDigits E) = 0 →
          (oj_num_as_valuex ni4).toQ =
            some (mathVal negb I (F.getD []) (expNeg E) (expDigits E))) ∧
        (¬((F.getD []).length = 0 ∧ digitsVal (expDigits E) = 0) →
          oj_num_as_valuex ni4 =
            .flt (digitsVal I : Int) (digitsVal (F.getD []) : Int)
              ((10 ^ (F.getD []).length : Nat) : Int)
              (if expNeg E then -(digitsVal (expDigits E) : Int)
               else (digitsVal (expDigits E) : Int)) negb)) ∧
      (DEC_MAX < I.length + (F.getD []).length - tzrun 0 (I ++ F.getD []) →
        ni4.big ≠ 0) := by
  obtain ⟨ni4, hrun, s_str, s_neg, s_nan, s_inf, s_nob, s_exp, c_len, cA, cB⟩ :=
    num_decimal_run I F ec E after
      { str := str0, i := 0, num := 0, div := 1, len := 0, exp := 0, dec_cnt := 0,
        big := 0, infinity := false, nan := false, neg := negb, no_big := nob }
      hI hdI hdF hdE hec hE2 ht htdot hte rfl rfl rfl rfl rfl rfl
  refine ⟨ni4, hrun, s_str, s_neg, s_nan, s_inf, c_len, ?_, cB⟩
  intro h1 h2 h3 h4
  obtain ⟨hb0, hi4, hnum4, hdiv4, hdec4⟩ := cA h1 h2 h3 h4
  refine ⟨hb0, hi4, hnum4, hdiv4, s_exp, ?_, ?_⟩
  · intro hfix
    obtain ⟨hF0, hE0⟩ := hfix
    have hdiv1 : ni4.div = 1 := by
      rw [hdiv4, hF0]
      simp
    have hexp1 : ni4.exp = 0 := by
      rw [s_exp, hE0]
      cases expNeg E <;> simp
    have hFnil : F.getD [] = [] := List.length_eq_zero.mp hF0
    have hval := num_value_fix ni4 negb I hb0 s_inf s_nan hi4 hdiv1 hexp1 s_neg
    rw [hval.2]
    have hmv : mathVal negb I [] false [] =
        mathVal negb I (F.getD []) (expNeg E) (expDigits E) := by
      unfold mathVal
      rw [hFnil, hE0]
      cases expNeg E <;> simp [digitsVal, digitsValFrom]
    rw [hmv]
  · intro hnd
    have hnd2 : ¬(ni4.div = 1 ∧ ni4.exp = 0) := by
      intro hdx
      obtain ⟨hdv, hex⟩ := hdx
      apply hnd
      constructor
      · rw [hdiv4] at hdv
        have hp1 : (10 : Nat) ^ (F.getD []).length = 1 := by exact_mod_cast hdv
        by_contra hne
        have := Nat.one_lt_pow hne (by norm_num : (1 : Nat) < 10)
        omega
      · rw [s_exp] at hex
        cases hEn : expNeg E <;> rw [hEn] at hex <;> simpa using hex
    have hval := num_value_flt ni4 hb0 s_inf s_nan hnd2
    rw [hval, hi4, hnum4, hdiv4, s_exp, s_neg]

/-- C1 (amended): for every well-formed decimal literal followed by a
non-numeric character, `read_num` accepts, consuming the literal plus the
single terminating character; the raw text span is preserved (`str` starts
at the literal's first character, and the `len`-byte span is the literal
plus the consumed terminator) and the infinity/nan flags are clear.  If the
ideal integer value stays below `LONG_MAX` (so the wrapping 64-bit
accumulator never wraps), the fraction denominator stays below `LONG_MAX`,
the exponent stays below `EXP_MAX` = 1023 and the significant-digit count
(digits minus the trailing-zero run) is at most `DEC_MAX` = 14, then `big`
stays clear and the integer/fraction/exponent fields hold exactly the
literal's decomposed values: an integer literal (no fraction digits, zero
exponent) reconstructs through the pure-integer `LONG2NUM` path to exactly
the literal's mathematical value, and any other literal reaches the double
computation with exactly those operands (the binary64 rounding of that
computation is outside this source, and no double equals e.g. `1/10`
exactly — see `float_path_rounding_gap`).  A significant-digit count above
`DEC_MAX` forces `big` nonzero, the text span still being preserved.  The
original claim is corrected on three counts: an in-range literal whose
exponent reaches `EXP_MAX` also sets `big` (see the counterexample);
an integer overflow does NOT reliably set `big`, because the C accumulator
wraps and the `LONG_MAX` comparison sees only the wrapped value (see
`int_wrap_big_unset`); and exact value reconstruction holds for the
fixnum path but not for the rounded double path. -/
theorem C1_number_lexing (sgn : Option Bool) (I : List Nat) (F : Option (List Nat))
    (ec : Nat) (E : Option (Option Bool × List Nat)) (after : List Nat)
    (opts : BigdecLoad)
    (hI : I ≠ []) (hdI : ∀ d ∈ I, d < 10) (hdF : ∀ d ∈ F.getD [], d < 10)
    (hdE : ∀ d ∈ expDigits E, d < 10) (hec : ec = 101 ∨ ec = 69)
    (hE2 : ∀ es E2, E = some (es, E2) → E2 ≠ [])
    (ht : isDigit (rget after).1 = false)
    (htdot : F = none → (rget after).1 ≠ 46)
    (hte : E = none → (rget after).1 ≠ 101 ∧ (rget after).1 ≠ 69)
    (hopts : opts ≠ BigdecLoad.BigDec) :
    ∃ ni,
      read_num_from (litText sgn I F ec E ++ after) opts = .ok (ni, (rget after).2) ∧
      ni.str = litText sgn I F ec E ++ after ∧
      ni.len = (litText sgn I F ec E).length + min 1 after.length ∧
      ni.str.take ni.len = litText sgn I F ec E ++ after.take 1 ∧
      ni.neg = negOf sgn ∧ ni.infinity = false ∧ ni.nan = false ∧
      (digitsVal I < LONG_MAX → 10 ^ (F.getD []).length < LONG_MAX →
        digitsVal (expDigits E) < EXP_MAX →
        I.length + (F.getD []).length - tzrun 0 (I ++ F.getD []) ≤ DEC_MAX →
        ni.big = 0 ∧ ni.i = (digitsVal I : Int) ∧
        ni.num = (digitsVal (F.getD []) : Int) ∧
        ni.div = ((10 ^ (F.getD []).length : Nat) : Int) ∧
        ni.exp = (if expNeg E then -(digitsVal (expDigits E) : Int)
                  else (digitsVal (expDigits E) : Int)) ∧
        ((F.getD []).length = 0 ∧ digitsVal (expDigits E) = 0 →
          (oj_num_as_valuex ni).toQ =
            some (mathVal (negOf sgn) I (F.getD []) (expNeg E) (expDigits E))) ∧
        (¬((F.getD []).length = 0 ∧ digitsVal (expDigits E) = 0) →
          oj_num_as_valuex ni =
            .flt (digitsVal I : Int) (digitsVal (F.getD []) : Int)
              ((10 ^ (F.getD []).length : Nat) : Int)
              (if expNeg E then -(digitsVal (expDigits E) : Int)
               else (digitsVal (expDigits E) : Int)) (negOf sgn))) ∧
      (DEC_MAX < I.length + (F.getD []).length - tzrun 0 (I ++ F.getD []) →
        ni.big ≠ 0) := by
  obtain ⟨d0, I0, hIeq⟩ : ∃ d0 I0, I = d0 :: I0 := by
    cases I with
    | nil => exact absurd rfl hI
    | cons a t => exact ⟨a, t, rfl⟩
  have hd0 : d0 < 10 := hdI d0 (by rw [hIeq]; exact List.mem_cons_self _ _)
  have hM1 : (rget (digitChars I ++ (fracChars F ++ (expChars ec E ++ after)))).1 =
      d0 + 48 := by
    rw [hIeq]; simp [digitChars, rget]
  have hMc : (rget (digitChars I ++ (fracChars F ++ (expChars ec E ++ after)))).1 ::
      (rget (digitChars I ++ (fracChars F ++ (expChars ec E ++ after)))).2 =
      digitChars I ++ (fracChars F ++ (expChars ec E ++ after)) := by
    rw [hIeq]; simp [digitChars, rget]
  have h73 : (rget (digitChars I ++ (fracChars F ++ (expChars ec E ++ after)))).1 ≠ 73 := by
    rw [hM1]; omega
  have h78 : ¬((rget (digitChars I ++ (fracChars F ++ (expChars ec E ++ after)))).1 = 78 ∨
      (rget (digitChars I ++ (fracChars F ++ (expChars ec E ++ after)))).1 = 110) := by
    rw [hM1]; omega
  rcases sgn with _ | b
  · -- no sign
    have hL : litText none I F ec E ++ after =
        digitChars I ++ (fracChars F ++ (expChars ec E ++ after)) := by
      simp [litText, signChars, List.append_assoc]
    obtain ⟨ni4, hrun, s_str, s_neg, s_nan, s_inf, s_len, cA, cB⟩ :=
      run_after_sign I F ec E after false (decide (opts = BigdecLoad.FloatDec))
        ((rget (digitChars I ++ (fracChars F ++ (expChars ec E ++ after)))).1 ::
         (rget (digitChars I ++ (fracChars F ++ (expChars ec E ++ after)))).2)
        hI hdI hdF hdE hec hE2 ht htdot hte
    refine ⟨ni4, ?_, ?_, ?_, ?_, s_neg, s_inf, s_nan, cA, cB⟩
    · rw [hL]
      have hev := read_num_eval_dec2
        (rget (digitChars I ++ (fracChars F ++ (expChars ec E ++ after)))).1
        (rget (digitChars I ++ (fracChars F ++ (expChars ec E ++ after)))).2 opts
        (rget (digitChars I ++ (fracChars F ++ (expChars ec E ++ after)))).1
        (rget (digitChars I ++ (fracChars F ++ (expChars ec E ++ after)))).2
        { str := (rget (digitChars I ++ (fracChars F ++ (expChars ec E ++ after)))).1 ::
                 (rget (digitChars I ++ (fracChars F ++ (expChars ec E ++ after)))).2,
          i := 0, num := 0, div := 1, len := 0, exp := 0, dec_cnt := 0, big := 0,
          infinity := false, nan := false, neg := false,
          no_big := opts = BigdecLoad.FloatDec }
        (by rw [if_neg (by rw [hM1]; omega), if_neg (by rw [hM1]; omega)]) h73 h78
      show read_num
        (rget (digitChars I ++ (fracChars F ++ (expChars ec E ++ after)))).1
        (rget (digitChars I ++ (fracChars F ++ (expChars ec E ++ after)))).2 opts =
        Except.ok (ni4, (rget after).2)
      rw [hev, hrun]
      simp [num_finish, hopts]
    · rw [s_str, hMc, hL]
    · rw [s_len, hMc, ← hL]
      exact len_span _ _
    · rw [s_str, s_len, hMc, ← hL]
      exact take_span _ _
  · cases b
    · -- leading plus sign
      have hL : litText (some false) I F ec E ++ after =
          43 :: (digitChars I ++ (fracChars F ++ (expChars ec E ++ after))) := by
        simp [litText, signChars, List.append_assoc]
      obtain ⟨ni4, hrun, s_str, s_neg, s_nan, s_inf, s_len, cA, cB⟩ :=
        run_after_sign I F ec E after false (decide (opts = BigdecLoad.FloatDec))
          (43 :: (digitChars I ++ (fracChars F ++ (expChars ec E ++ after))))
          hI hdI hdF hdE hec hE2 ht htdot hte
      refine ⟨ni4, ?_, ?_, ?_, ?_, s_neg, s_inf, s_nan, cA, cB⟩
      · rw [hL]
        have hev := read_num_eval_dec2 43
          (digitChars I ++ (fracChars F ++ (expChars ec E ++ after))) opts
          (rget (digitChars I ++ (fracChars F ++ (expChars ec E ++ after)))).1
          (rget (digitChars I ++ (fracChars F ++ (expChars ec E ++ after)))).2
          { str := 43 :: (digitChars I ++ (fracChars F ++ (expChars ec E ++ after))),
            i := 0, num := 0, div := 1, len := 0, exp := 0, dec_cnt := 0, big := 0,
            infinity := false, nan := false, neg := false,
            no_big := opts = BigdecLoad.FloatDec }
          (by rw [if_neg (by omega), if_pos rfl]) h73 h78
        show read_num 43 (digitChars I ++ (fracChars F ++ (expChars ec E ++ after))) opts =
          Except.ok (ni4, (rget after).2)
        rw [hev, hrun]
        simp [num_finish, hopts]
      · rw [s_str]; exact hL.symm
      · rw [s_len, ← hL]
        exact len_span _ _
      · rw [s_str, s_len, ← hL]
        exact take_span _ _
    · -- leading minus sign
      have hL : litText (some true) I F ec E ++ after =
          45 :: (digitChars I ++ (fracChars F ++ (expChars ec E ++ after))) := by
        simp [litText, signChars, List.append_assoc]
      obtain ⟨ni4, hrun, s_str, s_neg, s_nan, s_inf, s_len, cA, cB⟩ :=
        run_after_sign I F ec E after true (decide (opts = BigdecLoad.FloatDec))
          (45 :: (digitChars I ++ (fracChars F ++ (expChars ec E ++ after))))
          hI hdI hdF hdE hec hE2 ht htdot hte
      refine ⟨ni4, ?_, ?_, ?_, ?_, s_neg, s_inf, s_nan, cA, cB⟩
      · rw [hL]
        have hev := read_num_eval_dec2 45
          (digitChars I ++ (fracChars F ++ (expChars ec E ++ after))) opts
          (rget (digitChars I ++ (fracChars F ++ (expChars ec E ++ after)))).1
          (rget (digitChars I ++ (fracChars F ++ (expChars ec E ++ after)))).2
          { str := 45 :: (digitChars I ++ (fracChars F ++ (expChars ec E ++ after))),
            i := 0, num := 0, div := 1, len := 0, exp := 0, dec_cnt := 0, big := 0,
            infinity := false, nan := false, neg := true,
            no_big := opts = BigdecLoad.FloatDec }
          (by rw [if_pos rfl]) h73 h78
        show read_num 45 (digitChars I ++ (fracChars F ++ (expChars ec E ++ after))) opts =
          Except.ok (ni4, (rget after).2)
        rw [hev, hrun]
        simp [num_finish, hopts]
      · rw [s_str]; exact hL.symm
      · rw [s_len, ← hL]
        exact len_span _ _
      · rw [s_str, s_len, ← hL]
        exact take_span _ _


/-- The 64-bit accumulator wraps rather than saturates: on the literal `1`
followed by nineteen zeros (a single significant digit, so the `DEC_MAX`
threshold never fires) the ideal value `10^19` exceeds `LONG_MAX`, but the
wrapped accumulator is negative, the `LONG_MAX` comparison at parsex.c line
438 misses, and `big` stays clear — the value construction then returns
`LONG2NUM` of the wrapped garbage.  Integer overflow therefore does not
reliably set the `large` flag. -/
theorem int_wrap_big_unset :
    ∃ ni, read_num 49 [48, 48, 48, 48, 48, 48, 48, 48, 48, 48, 48, 48, 48, 48, 48,
        48, 48, 48, 48, 32] BigdecLoad.AutoDec = .ok (ni, []) ∧
      ni.big = 0 ∧ ni.i = -8446744073709551616 ∧ ni.dec_cnt = 1 ∧
      oj_num_as_valuex ni = .fix (-8446744073709551616) :=
  ⟨_, rfl, by decide⟩

/-- No binary64 double is exactly one tenth: a double is a dyadic rational
`m * 2 ^ e`, and `1/10` is not dyadic.  Lexing `0.1` reaches the float path
of `oj_num_as_valuex` with exact operands `i = 0`, `num = 1`, `div = 10` —
mathematically `1/10` — yet whatever double the C computation rounds to
cannot equal the literal's mathematical value, so exact reconstruction
cannot hold on the float path. -/
theorem float_path_rounding_gap :
    (∃ ni, read_num 48 [46, 49, 32] BigdecLoad.AutoDec = .ok (ni, []) ∧
      oj_num_as_valuex ni = .flt 0 1 10 0 false ∧
      mathVal false [0] [1] false [] = 1 / 10) ∧
    ∀ m e : ℤ, (m : ℚ) * 2 ^ e ≠ 1 / 10 := by
  constructor
  · refine ⟨_, rfl, by decide, ?_⟩
    unfold mathVal
    simp [digitsVal, digitsValFrom]
  · intro m e h
    rcases le_or_lt 0 e with he | he
    · lift e to ℕ using he with k
      rw [zpow_natCast] at h
      have h1 : ((10 * m * 2 ^ k : ℤ) : ℚ) = ((1 : ℤ) : ℚ) := by
        push_cast
        linear_combination 10 * h
      have h2 : (10 * m * 2 ^ k : ℤ) = 1 := Int.cast_injective h1
      have h5 : (5 : ℤ) ∣ 1 := ⟨2 * m * 2 ^ k, by linarith⟩
      norm_num at h5
    · have hk : e = -(((-e).toNat : ℤ)) := by omega
      rw [hk, zpow_neg, zpow_natCast] at h
      have h2k : ((2 : ℚ) ^ (-e).toNat) ≠ 0 := by positivity
      field_simp at h
      have h1 : ((10 * m : ℤ) : ℚ) = ((2 ^ (-e).toNat : ℤ) : ℚ) := by
        push_cast
        linear_combination h
      have h2 : (10 * m : ℤ) = 2 ^ (-e).toNat := Int.cast_injective h1
      have h5 : (5 : ℤ) ∣ 2 ^ (-e).toNat := ⟨2 * m, by linarith⟩
      have hp : Prime (5 : ℤ) := by norm_num
      have h6 : (5 : ℤ) ∣ 2 := hp.dvd_of_dvd_pow h5
      norm_num at h6

/-- C1 counterexample to the original claim: the literal `1e1023` has one
significant digit (≤ `DEC_MAX`), an integer accumulator of 1 (below
`LONG_MAX`) and an untouched divisor, yet `read_num` sets `big` because the
exponent reaches `EXP_MAX` = 1023 — an overflow source the claim does not
allow for. -/
theorem C1_counterexample :
    ∃ ni, read_num 49 [101, 49, 48, 50, 51, 32] BigdecLoad.AutoDec =
        .ok (ni, ([] : List Nat)) ∧
      ni.big = 1 ∧ ni.dec_cnt = 1 ∧ ni.dec_cnt ≤ DEC_MAX ∧ ni.i = 1 ∧
      ni.i < LONG_MAX ∧ ni.div = 1 ∧ ni.num = 0 ∧
      ni.str.take ni.len = [49, 101, 49, 48, 50, 51, 32] :=
  ⟨_, rfl, by decide⟩

/-- Witness: the literal `-3.14e2` followed by a space is lexed with its
span preserved, exact fields, and the float path receiving the exact
operands. -/
theorem C1_number_lexing_witness :
    ∃ ni,
      read_num_from (litText (some true) [3] (some [1, 4]) 101 (some (none, [2])) ++ [32])
          BigdecLoad.AutoDec = .ok (ni, (rget [32]).2) ∧
      ni.str = litText (some true) [3] (some [1, 4]) 101 (some (none, [2])) ++ [32] ∧
      ni.len = (litText (some true) [3] (some [1, 4]) 101 (some (none, [2]))).length +
        min 1 ([32] : List Nat).length ∧
      ni.str.take ni.len =
        litText (some true) [3] (some [1, 4]) 101 (some (none, [2])) ++
          ([32] : List Nat).take 1 ∧
      ni.neg = negOf (some true) ∧ ni.infinity = false ∧ ni.nan = false ∧
      (digitsVal [3] < LONG_MAX →
        10 ^ ((some [1, 4] : Option (List Nat)).getD []).length < LONG_MAX →
        digitsVal (expDigits (some (none, [2]))) < EXP_MAX →
        ([3] : List Nat).length + ((some [1, 4] : Option (List Nat)).getD []).length -
          tzrun 0 ([3] ++ (some [1, 4] : Option (List Nat)).getD []) ≤ DEC_MAX →
        ni.big = 0 ∧ ni.i = (digitsVal [3] : Int) ∧
        ni.num = (digitsVal ((some [1, 4] : Option (List Nat)).getD []) : Int) ∧
        ni.div = ((10 ^ ((some [1, 4] : Option (List Nat)).getD []).length : Nat) : Int) ∧
        ni.exp = (if expNeg (some (none, [2]))
                  then -(digitsVal (expDigits (some (none, [2]))) : Int)
                  else (digitsVal (expDigits (some (none, [2]))) : Int)) ∧
        (((some [1, 4] : Option (List Nat)).getD []).length = 0 ∧
            digitsVal (expDigits (some (none, [2]))) = 0 →
          (oj_num_as_valuex ni).toQ =
            some (mathVal (negOf (some true)) [3]
              ((some [1, 4] : Option (List Nat)).getD [])
              (expNeg (some (none, [2]))) (expDigits (some (none, [2]))))) ∧
        (¬(((some [1, 4] : Option (List Nat)).getD []).length = 0 ∧
            digitsVal (expDigits (some (none, [2]))) = 0) →
          oj_num_as_valuex ni =
            .flt (digitsVal [3] : Int)
              (digitsVal ((some [1, 4] : Option (List Nat)).getD []) : Int)
              ((10 ^ ((some [1, 4] : Option (List Nat)).getD []).length : Nat) : Int)
              (if expNeg (some (none, [2]))
               then -(digitsVal (expDigits (some (none, [2]))) : Int)
               else (digitsVal (expDigits (some (none, [2]))) : Int))
              (negOf (some true)))) ∧
      (DEC_MAX < ([3] : List Nat).length +
          ((some [1, 4] : Option (List Nat)).getD []).length -
          tzrun 0 ([3] ++ (some [1, 4] : Option (List Nat)).getD []) → ni.big ≠ 0) :=
  C1_number_lexing (some true) [3] (some [1, 4]) 101 (some (none, [2])) [32]
    BigdecLoad.AutoDec (by decide) (by decide) (by decide) (by decide) (Or.inl rfl)
    (by intro es E2 h
        injection h with h1
        injection h1 with h2 h3
        rw [← h3]; decide)
    (by decide) (by simp) (by simp) (by decide)
